import Mathlib

/-!
Verification of the contract-analysis core of the Netronix legal-contract
repository: the clause segmenter (`app/utils/clauses.py`), the model-response
parser and retry loop (`app/llm/groq_client.py`) and the analysis orchestrator
with its precedent fallback (`app/analyzer/analyze_document.py`).

Python strings are modelled as `List Char` (a Python `str` is a sequence of
Unicode code points).  Character-class predicates (`\s`, `\w`, `[A-Z]`,
`str.strip`, `str.lower`) are modelled on the ASCII range that the repository's
regexes and data exercise; Python's classes additionally cover rare non-ASCII
code points, which none of the concrete inputs below contain.
-/

namespace Netronix

/-- Whitespace as matched by Python's `\s` on `str` (ASCII part) and stripped
by `str.strip()` with no argument. -/
def isPySpace (c : Char) : Bool :=
  c = ' ' || c = '\t' || c = '\n' || c = '\x0d' || c = '\x0b' || c = '\x0c'

/-- Python `str.lstrip()`. -/
def pyStripL (l : List Char) : List Char := l.dropWhile isPySpace

/-- Python `str.rstrip()`. -/
def pyStripR (l : List Char) : List Char := (l.reverse.dropWhile isPySpace).reverse

/-- Python `str.strip()` with no argument. -/
def pyStrip (l : List Char) : List Char := pyStripR (pyStripL l)

/-- Line-boundary code points of Python `str.splitlines` (`\n`, `\r`, `\v`,
`\f`, `\x1c`, `\x1d`, `\x1e`, `\x85`, U+2028, U+2029; `\r\n` counts as a
single boundary). -/
def isPyLineBreak (c : Char) : Bool :=
  c = '\n' || c = '\x0d' || c = '\x0b' || c = '\x0c' || c = '\x1c' ||
  c = '\x1d' || c = '\x1e' || c = '\x85' || c = Char.ofNat 0x2028 ||
  c = Char.ofNat 0x2029

/-- Worker for `pySplitlines`: `cur` is the current line, reversed; a `\r`
immediately followed by `\n` consumes both characters as one boundary. -/
def slGo : List Char → List Char → List (List Char)
  | [], cur => if cur.isEmpty then [] else [cur.reverse]
  | c :: rest, cur =>
      if isPyLineBreak c then
        cur.reverse ::
          slGo (if c = '\x0d' && rest.head? = some '\n' then rest.tail else rest) []
      else slGo rest (c :: cur)
termination_by l _ => l.length
decreasing_by
  · simp only [List.length_cons]
    split
    · exact Nat.lt_succ_of_le (by simp)
    · exact Nat.lt_succ_self _
  · exact Nat.lt_succ_self _

/-- Python `str.splitlines()`. -/
def pySplitlines (l : List Char) : List (List Char) := slGo l []

/-- Python `"\n".join(lines)`. -/
def joinNl : List (List Char) → List Char
  | [] => []
  | [l] => l
  | l :: rest => l ++ '\n' :: joinNl rest

/-- The backtick character (code point 96). -/
def btChar : Char := Char.ofNat 96

/-- Three backticks, the Markdown fence marker. -/
def bt3 : List Char := [btChar, btChar, btChar]

/-- Whether the text begins with three backticks (Python
`text.startswith("` + "``" + `` ... ``)`). -/
def startsBT : List Char → Bool
  | a :: b :: c :: _ => a = btChar && b = btChar && c = btChar
  | _ => false

/-- Whether the text ends with three backticks. -/
def endsBT (l : List Char) : Bool := startsBT l.reverse

/-- Model of `_strip_code_fences` in `app/llm/groq_client.py`: if the text is
falsy (empty) it is returned unchanged; otherwise it is stripped, and if the
stripped text both starts and ends with three backticks, the first and last
lines are removed and the joined remainder stripped again. -/
def stripCodeFences (t : List Char) : List Char :=
  if t.isEmpty then t
  else
    let s := pyStrip t
    if startsBT s && endsBT s then
      pyStrip (joinNl (((pySplitlines s).drop 1).dropLast))
    else s

/-- A fence-marker line in the sense of the specification: a line that begins
with three backticks (the opening fence may carry a language tag). -/
def isFenceMarkerLine (l : List Char) : Bool := startsBT l

/-! ## JSON values and a model of Python `json.loads` -/

/-- JSON values as recovered by Python `json.loads`, at the level of syntax:
a number keeps its decimal lexeme (the repository only ever inspects the
integer `0`), an object keeps its members in source order.  `json.loads`
is the Python standard library, not repository code; it is modelled here by
a recursive-descent reading of the JSON grammar that `json.loads` accepts. -/
inductive Json where
  | null : Json
  | bool (b : Bool) : Json
  | num (lex : List Char) : Json
  | str (s : List Char) : Json
  | arr (elems : List Json) : Json
  | obj (members : List (List Char × Json)) : Json

/-- Whitespace accepted between JSON tokens by `json.loads`. -/
def isJsonWs (c : Char) : Bool := c = ' ' || c = '\t' || c = '\n' || c = '\x0d'

/-- Skip inter-token whitespace. -/
def skipJWs (cs : List Char) : List Char := cs.dropWhile isJsonWs

/-- Value of a hexadecimal digit (code points 48-57 are the decimal digits,
97-102 the lowercase letters a-f, 65-70 the uppercase letters A-F). -/
def hexVal (c : Char) : Option Nat :=
  if 48 ≤ c.toNat ∧ c.toNat ≤ 57 then some (c.toNat - 48)
  else if 97 ≤ c.toNat ∧ c.toNat ≤ 102 then some (c.toNat - 87)
  else if 65 ≤ c.toNat ∧ c.toNat ≤ 70 then some (c.toNat - 55)
  else none

/-- Parse the body of a JSON string (the opening quote already consumed):
returns the decoded content and the rest after the closing quote.  Strict
mode: unescaped control characters are refused, as are unknown escapes. -/
def jpString : List Char → Option (List Char × List Char)
  | [] => none
  | '"' :: rest => some ([], rest)
  | '\\' :: 'u' :: h1 :: h2 :: h3 :: h4 :: rest =>
      match hexVal h1, hexVal h2, hexVal h3, hexVal h4 with
      | some a, some b, some c, some d =>
          (jpString rest).map (fun p =>
            (Char.ofNat (((a * 16 + b) * 16 + c) * 16 + d) :: p.1, p.2))
      | _, _, _, _ => none
  | '\\' :: e :: rest =>
      let esc : Option Char :=
        if e = '"' then some '"'
        else if e = '\\' then some '\\'
        else if e = '/' then some '/'
        else if e = 'b' then some '\x08'
        else if e = 'f' then some '\x0c'
        else if e = 'n' then some '\n'
        else if e = 'r' then some '\x0d'
        else if e = 't' then some '\t'
        else none
      match esc with
      | some d => (jpString rest).map (fun p => (d :: p.1, p.2))
      | none => none
  | c :: rest =>
      if c.toNat < 0x20 then none
      else (jpString rest).map (fun p => (c :: p.1, p.2))

/-- Digits. -/
def isDigitCh (c : Char) : Bool := '0' ≤ c && c ≤ '9'

/-- Parse a JSON number lexeme (the grammar of Python json's NUMBER_RE:
an optional minus, an integer part without leading zeros, an optional
fraction, an optional exponent); returns the lexeme and the rest. -/
def jpNumber (cs : List Char) : Option (List Char × List Char) :=
  let (neg, cs1) :=
    match cs with
    | '-' :: r => (['-'], r)
    | _ => (([] : List Char), cs)
  match cs1 with
  | '0' :: r1 => jpNumTail (neg ++ ['0']) r1
  | c :: _ =>
      if isDigitCh c then
        let ds := cs1.takeWhile isDigitCh
        jpNumTail (neg ++ ds) (cs1.dropWhile isDigitCh)
      else none
  | [] => none
where
  /-- Optional fraction and exponent after the integer part. -/
  jpNumTail (lex : List Char) (r : List Char) : Option (List Char × List Char) :=
    let (lex1, r1) :=
      match r with
      | '.' :: r2 =>
          let fs := r2.takeWhile isDigitCh
          if fs.isEmpty then (lex, r) else (lex ++ '.' :: fs, r2.dropWhile isDigitCh)
      | _ => (lex, r)
    match r1 with
    | e :: r2 =>
        if e = 'e' || e = 'E' then
          let (sgn, r3) :=
            match r2 with
            | '+' :: r4 => (['+'], r4)
            | '-' :: r4 => (['-'], r4)
            | _ => (([] : List Char), r2)
          let es := r3.takeWhile isDigitCh
          if es.isEmpty then some (lex1, r1)
          else some (lex1 ++ e :: (sgn ++ es), r3.dropWhile isDigitCh)
        else some (lex1, r1)
    | [] => some (lex1, r1)

mutual

/-- Parse one JSON value (fuel-bounded recursive descent; the fuel passed by
`jsonLoads` always suffices). -/
def jpVal : Nat → List Char → Option (Json × List Char)
  | 0, _ => none
  | f + 1, cs0 =>
      match skipJWs cs0 with
      | [] => none
      | c :: rest =>
          if c = '{' then
            match skipJWs rest with
            | '}' :: r2 => some (.obj [], r2)
            | r2 => jpMembers f r2 []
          else if c = '[' then
            match skipJWs rest with
            | ']' :: r2 => some (.arr [], r2)
            | r2 => jpElems f r2 []
          else if c = '"' then (jpString rest).map (fun p => (.str p.1, p.2))
          else if c = 't' then
            match rest with
            | 'r' :: 'u' :: 'e' :: r2 => some (.bool true, r2)
            | _ => none
          else if c = 'f' then
            match rest with
            | 'a' :: 'l' :: 's' :: 'e' :: r2 => some (.bool false, r2)
            | _ => none
          else if c = 'n' then
            match rest with
            | 'u' :: 'l' :: 'l' :: r2 => some (.null, r2)
            | _ => none
          else (jpNumber (c :: rest)).map (fun p => (.num p.1, p.2))

/-- Parse the members of a JSON object after the opening brace (first key
expected next, surrounding whitespace already skipped). -/
def jpMembers : Nat → List Char → List (List Char × Json) → Option (Json × List Char)
  | 0, _, _ => none
  | f + 1, cs, acc =>
      match cs with
      | '"' :: rest =>
          match jpString rest with
          | none => none
          | some (k, r1) =>
              match skipJWs r1 with
              | ':' :: r2 =>
                  match jpVal f r2 with
                  | none => none
                  | some (v, r3) =>
                      match skipJWs r3 with
                      | ',' :: r4 => jpMembers f (skipJWs r4) (acc ++ [(k, v)])
                      | '}' :: r4 => some (.obj (acc ++ [(k, v)]), r4)
                      | _ => none
              | _ => none
      | _ => none

/-- Parse the elements of a JSON array after the opening bracket. -/
def jpElems : Nat → List Char → List Json → Option (Json × List Char)
  | 0, _, _ => none
  | f + 1, cs, acc =>
      match jpVal f cs with
      | none => none
      | some (v, r1) =>
          match skipJWs r1 with
          | ',' :: r2 => jpElems f r2 (acc ++ [v])
          | ']' :: r2 => some (.arr (acc ++ [v]), r2)
          | _ => none

end

/-- Model of Python `json.loads`: parse one value and require that only
whitespace follows (otherwise `json.loads` raises and the model yields
`none`). -/
def jsonLoads (cs : List Char) : Option Json :=
  match jpVal (2 * cs.length + 2) cs with
  | some (v, rest) => if (skipJWs rest).isEmpty then some v else none
  | none => none

/-! ## Model of `_extract_first_json` and `_parse_json_strict` -/

/-- Brace-depth scan after the first opening brace: `d` is the current depth
(at least 1), `acc` the scanned characters in reverse. -/
def extGo2 : List Char → Nat → List Char → Option (List Char)
  | [], _, _ => none
  | c :: rest, d, acc =>
      if c = '{' then extGo2 rest (d + 1) (c :: acc)
      else if c = '}' then
        if d = 1 then some (c :: acc).reverse else extGo2 rest (d - 1) (c :: acc)
      else extGo2 rest d (c :: acc)

/-- Scan up to the first opening brace (a closing brace before it leaves the
stack at zero and is ignored, as in the Python loop). -/
def extGo1 : List Char → Option (List Char)
  | [] => none
  | c :: rest => if c = '{' then extGo2 rest 1 [c] else extGo1 rest

/-- Model of `_extract_first_json` in `app/llm/groq_client.py`: the substring
from the first `\x7b` to the brace that returns the depth to zero, or `None`. -/
def extractFirstJson (cs : List Char) : Option (List Char) :=
  if cs.isEmpty then none else extGo1 cs

/-- Model of `_parse_json_strict` in `app/llm/groq_client.py`: strip fences,
try a direct parse, then try the first balanced-brace substring; `None` when
both fail. -/
def parseJsonStrict (t : List Char) : Option Json :=
  if t.isEmpty then none
  else
    match jsonLoads (stripCodeFences t) with
    | some v => some v
    | none =>
        match extractFirstJson (stripCodeFences t) with
        | some cand => if cand.isEmpty then none else jsonLoads cand
        | none => none

/-- Text free of brace characters. -/
def braceFree (l : List Char) : Prop := ∀ c ∈ l, c ≠ '{' ∧ c ≠ '}'

instance (l : List Char) : Decidable (braceFree l) := by
  unfold braceFree
  infer_instance

/-! ## Model of `call_groq_chat` -/

/-- `MAX_RETRIES` in `app/llm/groq_client.py`. -/
def MAX_RETRIES : Nat := 2

/-- `RETRY_DELAY` (seconds) in `app/llm/groq_client.py`. -/
def RETRY_DELAY : ℚ := 1

/-- The retry loop of `call_groq_chat`.  `oracle i` is the outcome of the
whole body of attempt number `i` (HTTP post, status check, content
extraction, `_parse_json_strict` and the dict check — any of them raising
makes the attempt fail); `k` is the number of attempts left, `attempt` the
1-based number of the next attempt.  Returns the final outcome, the number
of attempts made, and the list of back-off sleeps (`RETRY_DELAY * attempt`
after every failed attempt except the last). -/
def runAttempts (oracle : Nat → Except (List Char) Json) (base : ℚ) :
    Nat → Nat → Except (List Char) Json × Nat × List ℚ
  | 0, _ => (.error [], 0, [])
  | k + 1, attempt =>
      match oracle attempt with
      | .ok v => (.ok v, 1, [])
      | .error e =>
          if k = 0 then (.error e, 1, [])
          else
            let r := runAttempts oracle base k (attempt + 1)
            (r.1, r.2.1 + 1, (base * (attempt : ℚ)) :: r.2.2)

/-- Model of `call_groq_chat`: an empty `GROQ_API_KEY` raises before any
attempt; otherwise the loop makes up to `max_retries + 1` attempts. -/
def callGroqChat (apiKey : List Char) (oracle : Nat → Except (List Char) Json)
    (maxRetries : Nat) (base : ℚ) : Except (List Char) Json × Nat × List ℚ :=
  if apiKey.isEmpty then (.error "GROQ_API_KEY not set in environment.".toList, 0, [])
  else runAttempts oracle base (maxRetries + 1) 1

/-! ## The clause segmenter (`app/utils/clauses.py`) -/

/-- `DEFAULT_MIN_LEN` in `app/utils/clauses.py`. -/
def DEFAULT_MIN_LEN : Nat := 40

/-- `DEFAULT_MAX_LEN` in `app/utils/clauses.py`. -/
def DEFAULT_MAX_LEN : Nat := 2000

/-- First normalization pass, `re.sub(r'\r\n?', '\n', s)`: every `\r\n` and
every lone `\r` becomes `\n`. -/
def crToNl : List Char → List Char
  | [] => []
  | '\x0d' :: '\n' :: rest => '\n' :: crToNl rest
  | '\x0d' :: rest => '\n' :: crToNl rest
  | c :: rest => c :: crToNl rest

/-- Index of the last `\n` in `w` (meaningful only when `w` contains one). -/
def lastNlIdx (w : List Char) : Nat :=
  w.length - 1 - w.reverse.findIdx (fun d => d = '\n')

/-- Second normalization pass, `re.sub(r'\n\s*\n\s*\n+', '\n\n', s)`: a
whitespace run containing at least three newlines has the stretch from its
first to its last newline replaced by a blank line (the greedy `\s*`/`\n+`
make the match extend to the run's last newline); scanning resumes after the
replacement.  Fuel-bounded scan; the fuel supplied always suffices since
every step consumes at least one character. -/
def collapseNlGo : Nat → List Char → List Char
  | 0, cs => cs
  | _ + 1, [] => []
  | fuel + 1, c :: rest =>
      if c = '\n' then
        let w := (c :: rest).takeWhile isPySpace
        if 3 ≤ (w.filter (fun d => d = '\n')).length then
          '\n' :: '\n' :: collapseNlGo fuel (List.drop (lastNlIdx w + 1) (c :: rest))
        else c :: collapseNlGo fuel rest
      else c :: collapseNlGo fuel rest

/-- Second normalization pass (entry point). -/
def collapseNl (cs : List Char) : List Char := collapseNlGo (cs.length + 1) cs

/-- Horizontal whitespace of the third pass. -/
def isBlankCh (c : Char) : Bool := c = ' ' || c = '\t'

/-- Third normalization pass, `re.sub(r'[ \t]{2,}', ' ', s)`: a run of two or
more spaces/tabs becomes a single space (a run of one is kept as is). -/
def collapseSpGo : Nat → List Char → List Char
  | 0, cs => cs
  | _ + 1, [] => []
  | fuel + 1, c :: rest =>
      if isBlankCh c && (match rest.head? with
          | some d => isBlankCh d
          | none => false) then
        ' ' :: collapseSpGo fuel (rest.dropWhile isBlankCh)
      else c :: collapseSpGo fuel rest

/-- Third normalization pass (entry point). -/
def collapseSp (cs : List Char) : List Char := collapseSpGo (cs.length + 1) cs

/-- Model of `_normalize_whitespace`: the three substitutions, then `strip`.
(The Python function raises only for non-string input, which the `List Char`
model excludes by typing.) -/
def normalizeWs (cs : List Char) : List Char :=
  pyStrip (collapseSp (collapseNl (crToNl cs)))

/-- ASCII uppercase (regex `[A-Z]`). -/
def isUpperCh (c : Char) : Bool := 'A' ≤ c && c ≤ 'Z'

/-- ASCII letters (regex `[A-Za-z]`). -/
def isAlphaCh (c : Char) : Bool := isUpperCh c || ('a' ≤ c && c ≤ 'z')

/-- Consume a literal; `none` when the text does not start with it. -/
def dropLit : List Char → List Char → Option (List Char)
  | [], cs => some cs
  | _ :: _, [] => none
  | l :: ls, c :: cs => if c = l then dropLit ls cs else none

/-- Greedy match of `classRun{kmin,}` followed by `\n`, where `\n` belongs to
the class (true for `[A-Z\s]` and `[A-Za-z\s]`): the match takes the largest
`k ≥ kmin` such that the first `k` characters lie in the class and the next
character is `\n`; returns that `k`. -/
def greedyClassNl (p : Char → Bool) (kmin : Nat) (rest : List Char) : Option Nat :=
  let run := rest.takeWhile p
  ((List.range run.length).filter
    (fun i => decide (kmin ≤ i) && decide (run.getD i ' ' = '\n'))).getLast?

/-- Heading alternative (a): `^(Section|Clause)\s+\d+[\. :-]` — note that the
code builds the combined pattern with `p.strip('(?m)')`, which also strips
the trailing `?` of `[\. :-]?`, so the punctuation class is required.
Returns the match length. -/
def altA (cs : List Char) : Option Nat :=
  let tryLit (lit : List Char) : Option Nat :=
    match dropLit lit cs with
    | none => none
    | some r1 =>
        let ws := r1.takeWhile isPySpace
        if ws.isEmpty then none
        else
          let r2 := r1.dropWhile isPySpace
          let ds := r2.takeWhile isDigitCh
          if ds.isEmpty then none
          else
            match (r2.dropWhile isDigitCh).head? with
            | some c =>
                if c = '.' || c = ':' || c = ' ' || c = '-' then
                  some (lit.length + ws.length + ds.length + 1)
                else none
            | none => none
  match tryLit "Section".toList with
  | some n => some n
  | none => tryLit "Clause".toList

/-- Heading alternative (b): `^[A-Z][A-Z\s]{4,}\n` (an all-caps heading
line). -/
def altB (cs : List Char) : Option Nat :=
  match cs with
  | c :: rest =>
      if isUpperCh c then
        match greedyClassNl (fun d => isUpperCh d || isPySpace d) 4 rest with
        | some k => some (1 + k + 1)
        | none => none
      else none
  | [] => none

/-- Heading alternative (c): `^\d+\.\s+[A-Z][A-Za-z\s]{3,}\n` (a numbered
heading line such as `1. Definitions`). -/
def altC (cs : List Char) : Option Nat :=
  let ds := cs.takeWhile isDigitCh
  if ds.isEmpty then none
  else
    match cs.dropWhile isDigitCh with
    | '.' :: r2 =>
        let ws := r2.takeWhile isPySpace
        if ws.isEmpty then none
        else
          match r2.dropWhile isPySpace with
          | c :: r3 =>
              if isUpperCh c then
                match greedyClassNl (fun d => isAlphaCh d || isPySpace d) 3 r3 with
                | some k => some (ds.length + 1 + ws.length + 1 + k + 1)
                | none => none
              else none
          | [] => none
    | _ => none

/-- Heading alternative (d): `^[0-9]+\.[0-9]+\s+` (a subsection marker such
as `1.1 `). -/
def altD (cs : List Char) : Option Nat :=
  let ds := cs.takeWhile isDigitCh
  if ds.isEmpty then none
  else
    match cs.dropWhile isDigitCh with
    | '.' :: r2 =>
        let ds2 := r2.takeWhile isDigitCh
        if ds2.isEmpty then none
        else
          let r3 := r2.dropWhile isDigitCh
          let ws := r3.takeWhile isPySpace
          if ws.isEmpty then none
          else some (ds.length + 1 + ds2.length + ws.length)
    | _ => none

/-- One match attempt of the combined `_SPLIT_RE` at a line-start position:
the alternatives are tried in the pattern's order. -/
def tryMatchAt (cs : List Char) : Option Nat :=
  match altA cs with
  | some n => some n
  | none =>
      match altB cs with
      | some n => some n
      | none =>
          match altC cs with
          | some n => some n
          | none => altD cs

/-- `finditer` over the combined heading pattern: scan every position, try a
match where a line starts (`re.MULTILINE` anchors `^` at index 0 and after
every `\n`), record the start of each non-overlapping match and resume after
its end.  Fuel-bounded; the fuel supplied always suffices. -/
def findStartsGo : Nat → List Char → Nat → Bool → List Nat
  | 0, _, _, _ => []
  | _ + 1, [], _, _ => []
  | fuel + 1, c :: rest, i, atLS =>
      if atLS then
        match tryMatchAt (c :: rest) with
        | some n =>
            if n = 0 then findStartsGo fuel rest (i + 1) (c = '\n')
            else
              i :: findStartsGo fuel (List.drop n (c :: rest)) (i + n)
                (match ((c :: rest).take n).getLast? with
                  | some d => d = '\n'
                  | none => false)
        | none => findStartsGo fuel rest (i + 1) (c = '\n')
      else findStartsGo fuel rest (i + 1) (c = '\n')

/-- All heading-match start indices of the document. -/
def findStarts (t : List Char) : List Nat := findStartsGo (t.length + 1) t 0 true

/-- The slice `t[a:b]`. -/
def slice (t : List Char) (a b : Nat) : List Char := (t.drop a).take (b - a)

/-- The candidate blocks delimited by heading-match start positions: pieces
`t[0:s1], t[s1:s2], …, t[sk:]` (the loop keeps each heading attached to the
following text and appends the final tail). -/
def segsOf (t : List Char) (ss : List Nat) : List (List Char) :=
  (List.zip (0 :: ss) (ss ++ [t.length])).map (fun p => slice t p.1 p.2)

/-- Paragraph split, `[p.strip() for p in re.split(r'\n\s*\n', text) if
p.strip()]`: a separator is a whitespace run containing at least two
newlines, matched from its first to its last newline.  Fuel-bounded. -/
def paraGo : Nat → List Char → List Char → List (List Char)
  | 0, cur, cs => [cur.reverse ++ cs]
  | _ + 1, cur, [] => [cur.reverse]
  | fuel + 1, cur, c :: rest =>
      if c = '\n' then
        let w := (c :: rest).takeWhile isPySpace
        if 2 ≤ (w.filter (fun d => d = '\n')).length then
          cur.reverse :: paraGo fuel [] (List.drop (lastNlIdx w + 1) (c :: rest))
        else paraGo fuel (c :: cur) rest
      else paraGo fuel (c :: cur) rest

/-- Paragraph split (entry point), with stripping and dropping of blanks. -/
def pyParaSplit (t : List Char) : List (List Char) :=
  ((paraGo (t.length + 1) [] t).map pyStrip).filter (fun p => !p.isEmpty)

/-- The candidate blocks of `split_into_clauses`: heading-aware split when
the pattern matches, paragraph split otherwise; and when either yields a
single block, fall back to the paragraph split provided it yields more than
one block.  (The original character offsets are carried by the Python code
only for `debug=True` output and are not modelled.) -/
def computeParts (t : List Char) : List (List Char) :=
  let ms := findStarts t
  let parts0 :=
    if ms.isEmpty then pyParaSplit t
    else ((segsOf t ms).map pyStrip).filter (fun p => !p.isEmpty)
  if parts0.length = 1 then
    let ps := pyParaSplit t
    if 1 < ps.length then ps else parts0
  else parts0

/-- Sentence-ending punctuation of `re.split(r'(?<=[\.\?\!])\s+', text)`. -/
def isSentEnd (c : Char) : Bool := c = '.' || c = '?' || c = '!'

/-- Whether the previously consumed character (if any) ends a sentence. -/
def prevSentEnd : Option Char → Bool
  | some p => isSentEnd p
  | none => false

/-- Sentence split: a separator is a maximal whitespace run immediately
preceded by `.`, `?` or `!`.  Fuel-bounded. -/
def sentGo : Nat → List Char → Option Char → List Char → List (List Char)
  | 0, cur, _, cs => [cur.reverse ++ cs]
  | _ + 1, cur, _, [] => [cur.reverse]
  | fuel + 1, cur, prev, c :: rest =>
      if prevSentEnd prev && isPySpace c then
        let w := (c :: rest).takeWhile isPySpace
        cur.reverse :: sentGo fuel [] none (List.drop w.length (c :: rest))
      else sentGo fuel (c :: cur) (some c) rest

/-- Sentence split (entry point). -/
def pySentSplit (t : List Char) : List (List Char) :=
  sentGo (t.length + 1) [] none t

/-- The forced fixed-size slices of a single sentence longer than `max_len`:
`s[i:i+max_len].strip()` for `i in range(0, len(s), max_len)`, blanks
dropped.  (Python's `range` raises for `max_len = 0`; the theorems below
assume `1 ≤ max_len`.) -/
def forcedSlices (s : List Char) (maxLen : Nat) : List (List Char) :=
  ((List.range ((s.length + maxLen - 1) / maxLen)).map
    (fun i => pyStrip ((s.drop (i * maxLen)).take maxLen))).filter
    (fun p => !p.isEmpty)

/-- Python `" ".join(parts)`. -/
def joinSp : List (List Char) → List Char
  | [] => []
  | [l] => l
  | l :: rest => l ++ ' ' :: joinSp rest

/-- The sentence-accumulation loop of `_chunk_long_clause`: greedily add
whole sentences while the accumulated character count (not counting the
rejoining spaces) stays within `max_len`; on overflow flush the current
chunk, force-slice a sentence that alone exceeds `max_len`, otherwise start
a new chunk with the sentence. -/
def chunkGo (maxLen : Nat) :
    List (List Char) → List (List Char) → List (List Char) → Nat → List (List Char)
  | [], chunks, current, _ =>
      if current.isEmpty then chunks else chunks ++ [pyStrip (joinSp current)]
  | s :: rest, chunks, current, curLen =>
      if curLen + s.length ≤ maxLen then
        chunkGo maxLen rest chunks (current ++ [s]) (curLen + s.length)
      else
        let chunks1 :=
          if current.isEmpty then chunks else chunks ++ [pyStrip (joinSp current)]
        if maxLen < s.length then
          chunkGo maxLen rest (chunks1 ++ forcedSlices s maxLen) [] 0
        else chunkGo maxLen rest chunks1 [s] s.length

/-- Model of `_chunk_long_clause`: a block within `max_len` is returned
whole (or dropped when empty); a longer block is split at sentence
boundaries and chunked. -/
def chunkLongClause (text : List Char) (maxLen : Nat) : List (List Char) :=
  if text.length ≤ maxLen then (if text.isEmpty then [] else [text])
  else chunkGo maxLen (pySentSplit text) [] [] 0

/-- A clause record of `split_into_clauses` (the `debug` fields
`start_idx`/`end_idx` exist only for `debug=True` and are not modelled). -/
structure Clause where
  id : Nat
  text : List Char
  length : Nat
  tooShort : Bool
deriving Repr, DecidableEq

/-- The short-fragment merge: append `"\n\n" + c` to the text of the last
clause and recompute its `too_short` flag — its `length` field is left
unchanged by the code. -/
def mergeIntoLast (minLen : Nat) (c : List Char) : List Clause → List Clause
  | [] => []
  | [a] =>
      [{ a with
          text := a.text ++ '\n' :: '\n' :: c,
          tooShort := decide ((a.text ++ '\n' :: '\n' :: c).length < minLen) }]
  | a :: rest => a :: mergeIntoLast minLen c rest

/-- Process one chunk in the assembly loop of `split_into_clauses`: strip
it; a chunk shorter than `min_len` merges into the previous clause when one
exists and otherwise is kept (flagged) as the first clause; other chunks
become new clauses with the next sequential id. -/
def addChunk (minLen : Nat) (st : List Clause × Nat) (c0 : List Char) :
    List Clause × Nat :=
  let c := pyStrip c0
  let tooShort := decide (c.length < minLen)
  if tooShort then
    if st.1.isEmpty then
      (st.1 ++ [⟨st.2, c, c.length, tooShort⟩], st.2 + 1)
    else (mergeIntoLast minLen c st.1, st.2)
  else (st.1 ++ [⟨st.2, c, c.length, tooShort⟩], st.2 + 1)

/-- Invariant of the clause-assembly loop: the id counter equals the clause
count, ids are `0..cid-1` in order, every clause with a nonzero id is not
flagged too-short and its text meets `min_len`, and every clause's recorded
`length` is at most its current text length. -/
def StInv (minLen : Nat) (st : List Clause × Nat) : Prop :=
  st.2 = st.1.length ∧
  st.1.map (fun c => c.id) = List.range st.2 ∧
  (∀ cl ∈ st.1, cl.id ≠ 0 → (cl.tooShort = false ∧ minLen ≤ cl.text.length)) ∧
  (∀ cl ∈ st.1, cl.length ≤ cl.text.length)

/-- The nested assembly loop of `split_into_clauses`: the chunks of every
candidate block, processed in order through `addChunk`, starting from no
clauses and id counter 0. -/
def assembledState (minLen maxLen : Nat) (parts : List (List Char)) :
    List Clause × Nat :=
  parts.foldl
    (fun st part => (chunkLongClause part maxLen).foldl (addChunk minLen) st)
    ([], 0)

/-- The final pass of `split_into_clauses`: when more than one clause
remains, drop any clause still flagged too-short whose recorded length is
below `min_len`. -/
def assembleClauses (minLen maxLen : Nat) (parts : List (List Char)) : List Clause :=
  if 1 < (assembledState minLen maxLen parts).1.length then
    (assembledState minLen maxLen parts).1.filter
      (fun c => !(c.tooShort && decide (c.length < minLen)))
  else (assembledState minLen maxLen parts).1

/-- Model of `split_into_clauses` (with `debug=False`): normalize, split
into candidate blocks, chunk each block, assemble clauses with the
short-fragment merge, then drop still-too-short flagged clauses when more
than one clause remains. -/
def splitIntoClauses (text : List Char) (minLen maxLen : Nat) : List Clause :=
  if (normalizeWs text).isEmpty then []
  else assembleClauses minLen maxLen (computeParts (normalizeWs text))

/-! ## The precedent resolver (`app/analyzer/analyze_document.py`) -/

/-- `DEFAULT_TOP_K` in `app/analyzer/analyze_document.py`. -/
def DEFAULT_TOP_K : Nat := 3

/-- Python `\w` word characters (ASCII part; Python also accepts non-ASCII
word characters, which the repository's corpus does not contain). -/
def isWordCh (c : Char) : Bool := isAlphaCh c || isDigitCh c || c = '_'

/-- Python `str.lower()` (ASCII). -/
def pyLower (l : List Char) : List Char := l.map Char.toLower

/-- `re.findall(r'\w+', s)`: the maximal word-character runs, in order.
Fuel-bounded scan. -/
def pyWordsGo : Nat → List Char → List (List Char)
  | 0, _ => []
  | _ + 1, [] => []
  | fuel + 1, c :: rest =>
      if isWordCh c then
        (c :: rest.takeWhile isWordCh) :: pyWordsGo fuel (rest.dropWhile isWordCh)
      else pyWordsGo fuel rest

/-- `re.findall(r'\w+', s)` (entry point). -/
def pyWords (l : List Char) : List (List Char) := pyWordsGo (l.length + 1) l

/-- `set(re.findall(r'\w+', s.lower()))`: the distinct lowercase tokens. -/
def wordSet (l : List Char) : List (List Char) := (pyWords (pyLower l)).dedup

/-- `len(clause_words & p_words)`: how many distinct query tokens occur among
the reference's tokens. -/
def interScore (cws : List (List Char)) (p : List Char) : Nat :=
  (cws.filter (fun w => decide (w ∈ pyWords (pyLower p)))).length

/-- Lexicographic comparison of Python strings by code point (`x <= y`). -/
def listCharLe : List Char → List Char → Bool
  | [], _ => true
  | _ :: _, [] => false
  | a :: x, b :: y =>
      if a.toNat < b.toNat then true
      else if b.toNat < a.toNat then false
      else listCharLe x y

/-- The order used by `scored.sort(reverse=True)` on `(score, text)` pairs:
`a` precedes `b` when `a` is lexicographically at least `b` (descending). -/
def pairGE (a b : Nat × List Char) : Bool :=
  if a.1 = b.1 then listCharLe b.2 a.2 else decide (b.1 < a.1)

/-- The scored reference list, sorted descending as by
`scored.sort(reverse=True)` (a stable sort, as Python's). -/
def scoredSorted (cws : List (List Char)) (precedents : List (List Char)) :
    List (Nat × List Char) :=
  (precedents.map (fun p => (interScore cws p, p))).mergeSort pairGE

/-- `[p for score, p in scored[:top_k] if score > 0]`. -/
def pickedOf (cws : List (List Char)) (precedents : List (List Char))
    (topK : Nat) : List (List Char) :=
  ((scoredSorted cws precedents).take topK).filterMap
    (fun sp => if 0 < sp.1 then some sp.2 else none)

/-- Model of `_fallback_precedents`: a falsy (empty) clause text returns `[]`
before the corpus is read; `corpus = none` models any failure to load or
read `data/precedents.json` (the `except` branch); otherwise keyword
scoring, descending sort, the top-k positive-score picks, or the first
top-k references when no pick scored above zero. -/
def fallbackPrecedents (corpus : Option (List (List Char)))
    (clauseText : List Char) (topK : Nat) : List (List Char) :=
  if clauseText.isEmpty then []
  else
    match corpus with
    | none => []
    | some precedents =>
        if (pickedOf (wordSet clauseText) precedents topK).isEmpty then
          precedents.take topK
        else pickedOf (wordSet clauseText) precedents topK

/-- `CHROMA_AVAILABLE` in `app/analyzer/analyze_document.py`: the module
sets it to the constant `False` at line 9. -/
def CHROMA_AVAILABLE : Bool := false

/-- A semantic-store oracle: the outcome of `collection.query` for a clause
text and `n_results`, each returned document being a string (`some`) or a
non-string (`none`); `Except.error` models a raised exception. -/
def StoreFn : Type :=
  List Char → Nat → Except Unit (List (Option (List Char)))

/-- Model of `_query_precedents`: the semantic-store path runs only when
`CHROMA_AVAILABLE` and a collection exists — its results are filtered to
non-blank strings, and any exception falls back — otherwise the keyword
fallback is used. -/
def queryPrecedents (collection : Option StoreFn)
    (corpus : Option (List (List Char))) (clauseText : List Char)
    (topK : Nat) : List (List Char) :=
  if CHROMA_AVAILABLE then
    match collection with
    | some store =>
        match store clauseText topK with
        | .ok docs =>
            docs.filterMap (fun d =>
              match d with
              | some s => if (pyStrip s).isEmpty then none else some s
              | none => none)
        | .error _ => fallbackPrecedents corpus clauseText topK
    | none => fallbackPrecedents corpus clauseText topK
  else fallbackPrecedents corpus clauseText topK

/-! ## The analysis orchestrator (`analyze_document_text`) -/

/-- One analysis result (`analysis_obj` in the code). -/
structure AnalysisRes where
  clauseId : Nat
  clause : List Char
  analysis : Json
  precedents : List (List Char)
  ts : List Char

/-- One trace entry as passed to `_log_trace` (the file append itself is
best-effort I/O and swallowed on failure; the model records the entry). -/
structure TraceRec where
  ts : List Char
  clauseId : Nat
  clauseLength : Nat
  prompt : List Char
  error : Option (List Char)
  response : Json
  riskScore : Json
  precedents : List (List Char)

/-- The `risk_score` key. -/
def riskKey : List Char := "risk_score".toList

/-- The `reasons` key. -/
def reasonsKey : List Char := "reasons".toList

/-- The `redline` key. -/
def redlineKey : List Char := "redline".toList

/-- Dictionary lookup on a JSON object (the objects built here have
distinct keys). -/
def objGet : Json → List Char → Option Json
  | Json.obj members, k => (members.find? (fun m => decide (m.1 = k))).map (fun m => m.2)
  | _, _ => none

/-- `parsed.get(key, default)`. -/
def objGetD (j : Json) (k : List Char) (d : Json) : Json := (objGet j k).getD d

/-- The degraded result substituted when `call_groq_chat` raises:
`{"risk_score": 0, "reasons": ["llm_error"], "redline": ""}` (the int 0 is
modelled by its decimal lexeme). -/
def degradedAnalysis : Json :=
  Json.obj [(riskKey, Json.num ['0']),
    (reasonsKey, Json.arr [Json.str "llm_error".toList]),
    (redlineKey, Json.str [])]

/-- The user prompt built for a clause. -/
def mkUserPrompt (clauseText : List Char) : List Char :=
  ("Analyze the following contract clause and return JSON only following this schema:\n"
    ++ "\x7b \"risk_score\": int (0-5), \"reasons\": [str], \"redline\": str \x7d\n\n"
    ++ "Clause:\n\"\"\"\n").toList ++ clauseText ++ "\n\"\"\"\n".toList

/-- The per-clause loop of `analyze_document_text`.  `llm prompt` is the
outcome of `call_groq_chat` (`Except.error` models a raised exception, which
the loop converts into the degraded analysis and an `error` trace field);
`clock` supplies the per-iteration `datetime.now` timestamp; a clause whose
stripped text is empty is skipped entirely — no result and no trace. -/
def analyzeGo (llm : List Char → Except (List Char) Json)
    (collection : Option StoreFn) (corpus : Option (List (List Char)))
    (clock : Nat → List Char) (topK : Nat) :
    List Clause → Nat → List AnalysisRes × List TraceRec
  | [], _ => ([], [])
  | cl :: rest, k =>
      if (pyStrip cl.text).isEmpty then
        analyzeGo llm collection corpus clock topK rest k
      else
        ((⟨cl.id, pyStrip cl.text,
            (match llm (mkUserPrompt (pyStrip cl.text)) with
              | .ok p => p
              | .error _ => degradedAnalysis),
            queryPrecedents collection corpus (pyStrip cl.text) topK,
            clock k⟩ : AnalysisRes)
          :: (analyzeGo llm collection corpus clock topK rest (k + 1)).1,
        (⟨clock k, cl.id, (pyStrip cl.text).length,
            (mkUserPrompt (pyStrip cl.text)).take 500,
            (match llm (mkUserPrompt (pyStrip cl.text)) with
              | .ok _ => none
              | .error e => some e),
            (match llm (mkUserPrompt (pyStrip cl.text)) with
              | .ok p => p
              | .error _ => degradedAnalysis),
            objGetD
              (match llm (mkUserPrompt (pyStrip cl.text)) with
                | .ok p => p
                | .error _ => degradedAnalysis) riskKey (Json.num ['0']),
            queryPrecedents collection corpus (pyStrip cl.text) topK⟩ : TraceRec)
          :: (analyzeGo llm collection corpus clock topK rest (k + 1)).2)

/-- The clause list actually iterated by `analyze_document_text`: the
segmentation with the module defaults, truncated to `max_clauses` when that
parameter is not `None`. -/
def processedClauses (text : List Char) (maxClauses : Option Nat) : List Clause :=
  match maxClauses with
  | none => splitIntoClauses text DEFAULT_MIN_LEN DEFAULT_MAX_LEN
  | some m => (splitIntoClauses text DEFAULT_MIN_LEN DEFAULT_MAX_LEN).take m

/-- Model of `analyze_document_text`: split with the module defaults,
return early on no clauses, truncate to `max_clauses`, and run the
per-clause loop (the chroma collection is `none` because
`CHROMA_AVAILABLE` is the constant `False`, so `_init_chroma_client` is
never called). -/
def analyzeDocumentText (llm : List Char → Except (List Char) Json)
    (corpus : Option (List (List Char))) (clock : Nat → List Char)
    (text : List Char) (maxClauses : Option Nat) (topK : Nat) :
    List AnalysisRes × List TraceRec :=
  if (splitIntoClauses text DEFAULT_MIN_LEN DEFAULT_MAX_LEN).isEmpty then ([], [])
  else analyzeGo llm none corpus clock topK (processedClauses text maxClauses) 0

end Netronix

namespace Netronix

/-! ## Lemmas about line splitting and stripping -/

theorem slGo_append_nl (a b cur : List Char)
    (h : ∀ c ∈ a, isPyLineBreak c = false) :
    slGo (a ++ '\n' :: b) cur = (cur.reverse ++ a) :: slGo b [] := by
  induction a generalizing cur with
  | nil =>
      rw [List.nil_append, slGo]
      simp [show isPyLineBreak '\n' = true from rfl,
        show (decide (('\n' : Char) = '\x0d')) = false from rfl]
  | cons x xs ih =>
      have hx : isPyLineBreak x = false := h x (by simp)
      rw [List.cons_append, slGo]
      simp only [hx, Bool.false_eq_true, if_false]
      rw [ih (x :: cur) (fun c hc => h c (List.mem_cons_of_mem x hc))]
      simp

theorem slGo_no_break (a cur : List Char)
    (h : ∀ c ∈ a, isPyLineBreak c = false) (hne : cur.reverse ++ a ≠ []) :
    slGo a cur = [cur.reverse ++ a] := by
  induction a generalizing cur with
  | nil =>
      have hc : cur ≠ [] := by
        intro hcur
        exact hne (by simp [hcur])
      rw [slGo]
      simp [hc]
  | cons x xs ih =>
      have hx : isPyLineBreak x = false := h x (by simp)
      rw [slGo]
      simp only [hx, Bool.false_eq_true, if_false]
      rw [ih (x :: cur) (fun c hc => h c (List.mem_cons_of_mem x hc)) (by simp)]
      simp

theorem slGo_join (mid : List (List Char)) (b : List Char) (hmid : mid ≠ [])
    (h : ∀ l ∈ mid, ∀ c ∈ l, isPyLineBreak c = false) :
    slGo (joinNl mid ++ '\n' :: b) [] = mid ++ slGo b [] := by
  induction mid with
  | nil => exact absurd rfl hmid
  | cons m rest ih =>
      cases rest with
      | nil =>
          rw [show joinNl [m] = m from rfl,
            slGo_append_nl m b [] (fun c hc => h m (by simp) c hc)]
          simp
      | cons m2 r2 =>
          rw [show joinNl (m :: m2 :: r2) = m ++ '\n' :: joinNl (m2 :: r2) from rfl]
          rw [List.append_assoc, List.cons_append,
            slGo_append_nl m _ [] (fun c hc => h m (by simp) c hc)]
          rw [ih (by simp) (fun l hl => h l (List.mem_cons_of_mem m hl))]
          simp

theorem pyStripL_eq_self {l : List Char}
    (h : ∀ c, l.head? = some c → isPySpace c = false) : pyStripL l = l := by
  cases l with
  | nil => rfl
  | cons x xs =>
      have hx : isPySpace x = false := h x rfl
      simp [pyStripL, List.dropWhile_cons, hx]

theorem pyStrip_eq_self {l : List Char}
    (h1 : ∀ c, l.head? = some c → isPySpace c = false)
    (h2 : ∀ c, l.getLast? = some c → isPySpace c = false) : pyStrip l = l := by
  rw [pyStrip, pyStripL_eq_self h1, pyStripR]
  cases hr : l.reverse with
  | nil => simp [List.reverse_eq_nil_iff.mp hr]
  | cons d ds =>
      have hd : isPySpace d = false := by
        apply h2
        rw [← List.head?_reverse, hr]
        rfl
      rw [List.dropWhile_cons]
      simp [hd, ← hr]

theorem startsBT_bt3 (X : List Char) : startsBT (bt3 ++ X) = true := by
  simp [bt3, startsBT]

theorem endsBT_bt3 (X : List Char) : endsBT (X ++ bt3) = true := by
  simp [endsBT, bt3, List.reverse_append, startsBT]

/-- C5 (counterexample).  On the response whose last line is `world` followed
by the closing backticks — a line that is not a fence-marker line — the
fence-stripping step of `groq_client.py` nevertheless fires (the trimmed text
merely *ends* with three backticks), and the content `world` of that last line
is discarded: the result is `hello` alone, not the untouched response that the
claimed condition would require. -/
theorem c5_counterexample :
    (let t := "```json\nhello\nworld```".toList
     (pySplitlines (pyStrip t)).getLast? = some "world```".toList ∧
       isFenceMarkerLine "world```".toList = false ∧
       stripCodeFences t = "hello".toList ∧
       stripCodeFences t ≠ pyStrip t) := by
  refine ⟨?_, by decide, ?_, ?_⟩
  · simp +decide [pySplitlines, pyStrip, pyStripL, pyStripR, slGo, isPySpace,
      isPyLineBreak]
  · simp +decide [stripCodeFences, pySplitlines, pyStrip, pyStripL, pyStripR,
      slGo, isPySpace, isPyLineBreak, startsBT, endsBT, bt3, btChar, joinNl]
  · simp +decide [stripCodeFences, pySplitlines, pyStrip, pyStripL, pyStripR,
      slGo, isPySpace, isPyLineBreak, startsBT, endsBT, bt3, btChar, joinNl]

/-- C5 (amended).  `_strip_code_fences` removes the first and the last line
whenever the trimmed response starts with three backticks and also ends with
three backticks, whether or not the last line is a fence-marker line: the
interior lines between the first and the last are kept intact (joined and
stripped), while any content on the last line before the closing backticks is
discarded together with that line.  Here `tag` is the language tag of the
opening fence, `mid` the interior lines and `last` the content preceding the
closing backticks on the final line. -/
theorem c5_fence_strip_amended (tag lst : List Char) (mid : List (List Char))
    (hmid : mid ≠ [])
    (htag : ∀ c ∈ tag, isPyLineBreak c = false)
    (hmidc : ∀ l ∈ mid, ∀ c ∈ l, isPyLineBreak c = false)
    (hlst : ∀ c ∈ lst, isPyLineBreak c = false) :
    stripCodeFences (bt3 ++ (tag ++ '\n' :: (joinNl mid ++ '\n' :: (lst ++ bt3))))
      = pyStrip (joinNl mid) := by
  set t := bt3 ++ (tag ++ '\n' :: (joinNl mid ++ '\n' :: (lst ++ bt3))) with ht
  have hbt : isPySpace btChar = false := by decide
  have hbtl : isPyLineBreak btChar = false := by decide
  have hne : t.isEmpty = false := by simp [ht, bt3]
  have hhead : t.head? = some btChar := by simp [ht, bt3]
  have hlastc : t.getLast? = some btChar := by
    rw [← List.head?_reverse]
    simp [ht, bt3, List.reverse_append]
  have hstrip : pyStrip t = t := by
    apply pyStrip_eq_self
    · intro c hc
      rw [hhead] at hc
      cases hc
      exact hbt
    · intro c hc
      rw [hlastc] at hc
      cases hc
      exact hbt
  have hsb : startsBT t = true := by rw [ht]; exact startsBT_bt3 _
  have heb : endsBT t = true := by
    rw [ht, show bt3 ++ (tag ++ '\n' :: (joinNl mid ++ '\n' :: (lst ++ bt3)))
        = (bt3 ++ (tag ++ '\n' :: (joinNl mid ++ '\n' :: lst))) ++ bt3 by simp]
    exact endsBT_bt3 _
  have hlines : pySplitlines t = (bt3 ++ tag) :: (mid ++ [lst ++ bt3]) := by
    rw [pySplitlines, ht,
      show bt3 ++ (tag ++ '\n' :: (joinNl mid ++ '\n' :: (lst ++ bt3)))
        = (bt3 ++ tag) ++ '\n' :: (joinNl mid ++ '\n' :: (lst ++ bt3)) by simp]
    have hbt3 : ∀ c ∈ bt3, isPyLineBreak c = false := by decide
    rw [slGo_append_nl (bt3 ++ tag) _ []]
    · rw [slGo_join mid _ hmid hmidc]
      rw [slGo_no_break (lst ++ bt3) []]
      · simp
      · intro c hc
        rcases List.mem_append.mp hc with h | h
        · exact hlst c h
        · exact hbt3 c h
      · simp [bt3]
    · intro c hc
      rcases List.mem_append.mp hc with h | h
      · exact hbt3 c h
      · exact htag c h
  rw [stripCodeFences]
  simp only [hne, Bool.false_eq_true, if_false]
  rw [hstrip, hsb, heb]
  simp only [Bool.and_self, if_true]
  rw [hlines]
  simp [List.dropLast_concat]

/-- C5 (witness).  The amended fence-stripping theorem instantiated on a
concrete response with language tag `json`, a single interior line `hello`,
and last-line content `world` before the closing backticks. -/
theorem c5_witness :
    stripCodeFences (bt3 ++ ("json".toList ++ '\n' ::
        (joinNl ["hello".toList] ++ '\n' :: ("world".toList ++ bt3))))
      = "hello".toList := by
  have h := c5_fence_strip_amended "json".toList "world".toList ["hello".toList]
    (by simp) (by decide) (by decide) (by decide)
  exact h.trans (by decide)

/-! ## The retry loop -/

theorem sleepShift (base : ℚ) (a n : Nat) :
    base * ((a : ℕ) : ℚ) :: (List.range n).map (fun j => base * (((a + 1 + j) : ℕ) : ℚ))
      = (List.range (n + 1)).map (fun j => base * (((a + j) : ℕ) : ℚ)) := by
  rw [List.range_succ_eq_map]
  simp only [List.map_cons, List.map_map]
  refine List.cons_eq_cons.mpr ⟨by simp, ?_⟩
  apply List.map_congr_left
  intro j hj
  simp only [Function.comp_apply]
  congr 2
  omega

theorem runAttempts_all_fail (oracle : Nat → Except (List Char) Json) (base : ℚ) :
    ∀ k a, 1 ≤ k →
    (∀ i, a ≤ i → i < a + k → ∃ e, oracle i = .error e) →
    ∃ e, runAttempts oracle base k a
      = (.error e, k, (List.range (k - 1)).map (fun j => base * (((a + j) : ℕ) : ℚ))) := by
  intro k
  induction k with
  | zero => omega
  | succ k ih =>
      intro a _ hfail
      obtain ⟨e, he⟩ := hfail a (le_refl a) (by omega)
      by_cases hk : k = 0
      · subst hk
        exact ⟨e, by simp [runAttempts, he]⟩
      · obtain ⟨e2, he2⟩ := ih (a + 1) (by omega)
          (fun i h1 h2 => hfail i (by omega) (by omega))
        refine ⟨e2, ?_⟩
        rw [runAttempts, he]
        simp only [hk, if_false, he2]
        rw [show k + 1 - 1 = k from rfl]
        rw [show k = (k - 1) + 1 by omega, ← sleepShift base a (k - 1)]
        simp

theorem runAttempts_first_ok (oracle : Nat → Except (List Char) Json) (base : ℚ)
    (v : Json) :
    ∀ j k a, j < k → oracle (a + j) = .ok v →
    (∀ i, a ≤ i → i < a + j → ∃ e, oracle i = .error e) →
    runAttempts oracle base k a
      = (.ok v, j + 1, (List.range j).map (fun i => base * (((a + i) : ℕ) : ℚ))) := by
  intro j
  induction j with
  | zero =>
      intro k a hk hok _
      obtain ⟨k2, rfl⟩ : ∃ k2, k = k2 + 1 := ⟨k - 1, by omega⟩
      rw [runAttempts]
      simp only [Nat.add_zero] at hok
      rw [hok]
      simp
  | succ j ih =>
      intro k a hk hok hfail
      obtain ⟨k2, rfl⟩ : ∃ k2, k = k2 + 1 := ⟨k - 1, by omega⟩
      obtain ⟨e, he⟩ := hfail a (le_refl a) (by omega)
      rw [runAttempts, he]
      have hk2 : k2 ≠ 0 := by omega
      simp only [hk2, if_false]
      rw [ih k2 (a + 1) (by omega)
        (by rw [show a + 1 + j = a + (j + 1) by omega]; exact hok)
        (fun i h1 h2 => hfail i (by omega) (by omega))]
      rw [← sleepShift base a j]

/-- C7.  When every attempt of the model call fails, `call_groq_chat` makes
exactly `max_retries + 1` attempts, sleeping `base_delay * attempt_number`
after each failed attempt except the last, and raises only after the last
attempt; when some attempt succeeds after only failures, exactly that many
attempts are made and the parsed object is returned.  With the module
default `MAX_RETRIES = 2` the total is 3 attempts. -/
theorem c7_retry_policy :
    (∀ (oracle : Nat → Except (List Char) Json) (maxR : Nat) (base : ℚ)
        (key : List Char), key ≠ [] →
        (∀ i, 1 ≤ i → i ≤ maxR + 1 → ∃ e, oracle i = .error e) →
        ∃ e, callGroqChat key oracle maxR base
          = (.error e, maxR + 1,
              (List.range maxR).map (fun j => base * (((1 + j) : ℕ) : ℚ))))
    ∧ (∀ (oracle : Nat → Except (List Char) Json) (maxR : Nat) (base : ℚ)
        (key : List Char) (k : Nat) (v : Json), key ≠ [] → 1 ≤ k → k ≤ maxR + 1 →
        oracle k = .ok v →
        (∀ i, 1 ≤ i → i < k → ∃ e, oracle i = .error e) →
        callGroqChat key oracle maxR base
          = (.ok v, k, (List.range (k - 1)).map (fun j => base * (((1 + j) : ℕ) : ℚ))))
    ∧ MAX_RETRIES + 1 = 3 := by
  refine ⟨?_, ?_, rfl⟩
  · intro oracle maxR base key hkey hfail
    obtain ⟨e, he⟩ := runAttempts_all_fail oracle base (maxR + 1) 1 (by omega)
      (fun i h1 h2 => hfail i h1 (by omega))
    refine ⟨e, ?_⟩
    rw [callGroqChat, if_neg (by simpa [List.isEmpty_iff] using hkey), he]
    simp
  · intro oracle maxR base key k v hkey hk1 hk2 hok hfail
    rw [callGroqChat, if_neg (by simpa [List.isEmpty_iff] using hkey)]
    rw [runAttempts_first_ok oracle base v (k - 1) (maxR + 1) 1 (by omega)
      (by rw [show 1 + (k - 1) = k by omega]; exact hok)
      (fun i hi1 hi2 => hfail i hi1 (by omega))]
    rw [show k - 1 + 1 = k by omega]

/-- C7 (witness).  The retry theorem instantiated on a concrete oracle that
fails on attempt 1 and succeeds on attempt 2, with `max_retries = 2` and
`base_delay = 1`: two attempts are made, one sleep happens, and the parsed
value is returned. -/
theorem c7_witness :
    callGroqChat "k".toList (fun i => if i = 2 then .ok Json.null else .error ['x']) 2 1
      = (.ok Json.null, 2, (List.range 1).map (fun j => (1 : ℚ) * (((1 + j) : ℕ) : ℚ))) := by
  apply c7_retry_policy.2.1 _ 2 1 _ 2 Json.null (by simp) (by omega) (by omega) rfl
  intro i h1 h2
  have hi : i = 1 := by omega
  subst hi
  exact ⟨['x'], rfl⟩

/-! ## The balanced-brace extractor -/

theorem extGo2_length : ∀ (rem : List Char) (d : Nat) (acc out : List Char),
    extGo2 rem d acc = some out → out.length ≤ acc.length + rem.length := by
  intro rem
  induction rem with
  | nil => intro d acc out h; simp [extGo2] at h
  | cons c rest ih =>
      intro d acc out h
      rw [extGo2] at h
      by_cases h1 : c = '{'
      · simp only [h1, if_true] at h
        have := ih _ _ _ h
        simp at this ⊢
        omega
      · simp only [h1, if_false] at h
        by_cases h2 : c = '}'
        · simp only [h2, if_true] at h
          by_cases h3 : d = 1
          · simp only [h3, if_true] at h
            cases h
            simp
          · simp only [h3, if_false] at h
            have := ih _ _ _ h
            simp at this ⊢
            omega
        · simp only [h2, if_false] at h
          have := ih _ _ _ h
          simp at this ⊢
          omega

theorem extGo1_length : ∀ (l out : List Char),
    extGo1 l = some out → out.length ≤ l.length := by
  intro l
  induction l with
  | nil => intro out h; simp [extGo1] at h
  | cons c rest ih =>
      intro out h
      rw [extGo1] at h
      by_cases h1 : c = '{'
      · simp only [h1, if_true] at h
        have := extGo2_length _ _ _ _ h
        simp at this ⊢
        omega
      · simp only [h1, if_false] at h
        have := ih _ h
        simp
        omega

theorem extGo2_append : ∀ (rem : List Char) (d : Nat) (acc out post : List Char),
    extGo2 rem d acc = some out → extGo2 (rem ++ post) d acc = some out := by
  intro rem
  induction rem with
  | nil => intro d acc out post h; simp [extGo2] at h
  | cons c rest ih =>
      intro d acc out post h
      rw [extGo2] at h
      rw [List.cons_append, extGo2]
      by_cases h1 : c = '{'
      · simp only [h1, if_true] at h ⊢
        exact ih _ _ _ _ h
      · simp only [h1, if_false] at h ⊢
        by_cases h2 : c = '}'
        · simp only [h2, if_true] at h ⊢
          by_cases h3 : d = 1
          · simp only [h3, if_true] at h ⊢
            exact h
          · simp only [h3, if_false] at h ⊢
            exact ih _ _ _ _ h
        · simp only [h2, if_false] at h ⊢
          exact ih _ _ _ _ h

theorem extGo2_last : ∀ (rem : List Char) (d : Nat) (acc out : List Char),
    extGo2 rem d acc = some out → ∃ pre, out = pre ++ ['}'] := by
  intro rem
  induction rem with
  | nil => intro d acc out h; simp [extGo2] at h
  | cons c rest ih =>
      intro d acc out h
      rw [extGo2] at h
      by_cases h1 : c = '{'
      · simp only [h1, if_true] at h
        exact ih _ _ _ h
      · simp only [h1, if_false] at h
        by_cases h2 : c = '}'
        · simp only [h2, if_true] at h
          by_cases h3 : d = 1
          · simp only [h3, if_true] at h
            cases h
            exact ⟨acc.reverse, by simp [h2]⟩
          · simp only [h3, if_false] at h
            exact ih _ _ _ h
        · simp only [h2, if_false] at h
          exact ih _ _ _ h

theorem extGo1_shape (l : List Char) (h : extGo1 l = some l) :
    ∃ t, l = '{' :: t := by
  cases l with
  | nil => simp [extGo1] at h
  | cons c rest =>
      rw [extGo1] at h
      by_cases h1 : c = '{'
      · exact ⟨rest, by rw [h1]⟩
      · simp only [h1, if_false] at h
        have := extGo1_length _ _ h
        simp at this

theorem extGo1_last (l out : List Char) (h : extGo1 l = some out) :
    ∃ pre, out = pre ++ ['}'] := by
  induction l with
  | nil => simp [extGo1] at h
  | cons c rest ih =>
      rw [extGo1] at h
      by_cases h1 : c = '{'
      · simp only [h1, if_true] at h
        exact extGo2_last _ _ _ _ h
      · simp only [h1, if_false] at h
        exact ih h

theorem extGo1_skip (p r : List Char) (hp : braceFree p) :
    extGo1 (p ++ r) = extGo1 r := by
  induction p with
  | nil => rfl
  | cons c cs ih =>
      rw [List.cons_append, extGo1]
      have hc : c ≠ '{' := (hp c (by simp)).1
      simp only [hc, if_false]
      exact ih (fun d hd => hp d (List.mem_cons_of_mem c hd))

theorem extGo1_none_of_braceFree (l : List Char) (hl : braceFree l) :
    extGo1 l = none := by
  induction l with
  | nil => rfl
  | cons c cs ih =>
      rw [extGo1]
      have hc : c ≠ '{' := (hl c (by simp)).1
      simp only [hc, if_false]
      exact ih (fun d hd => hl d (List.mem_cons_of_mem c hd))

theorem extGo1_stable (j post : List Char) (h : extGo1 j = some j) :
    extGo1 (j ++ post) = some j := by
  obtain ⟨t, rfl⟩ := extGo1_shape j h
  rw [extGo1] at h
  simp only [if_pos rfl] at h
  rw [List.cons_append, extGo1]
  simp only [if_pos rfl]
  exact extGo2_append _ _ _ _ _ h

/-! ## Strip decomposition and character provenance -/

theorem pyStripL_append_of_head (pre r : List Char)
    (h : ∀ c, r.head? = some c → isPySpace c = false) :
    pyStripL (pre ++ r) = pyStripL pre ++ r := by
  rw [pyStripL, List.dropWhile_append]
  by_cases he : (List.dropWhile isPySpace pre).isEmpty
  · rw [if_pos he]
    have hr : List.dropWhile isPySpace r = r := by
      cases r with
      | nil => rfl
      | cons x xs => rw [List.dropWhile_cons, if_neg (by simp [h x rfl])]
    rw [hr, pyStripL]
    rw [List.isEmpty_iff] at he
    rw [he, List.nil_append]
  · rw [if_neg he, pyStripL]

theorem pyStripR_append_of_last (l post : List Char)
    (h : ∀ c, l.getLast? = some c → isPySpace c = false) :
    pyStripR (l ++ post) = l ++ pyStripR post := by
  rw [pyStripR, List.reverse_append]
  rw [show List.dropWhile isPySpace (post.reverse ++ l.reverse)
      = List.dropWhile isPySpace post.reverse ++ l.reverse from ?_]
  · rw [List.reverse_append, List.reverse_reverse, pyStripR]
  · rw [List.dropWhile_append]
    by_cases he : (List.dropWhile isPySpace post.reverse).isEmpty
    · rw [if_pos he]
      have hr : List.dropWhile isPySpace l.reverse = l.reverse := by
        cases hl : l.reverse with
        | nil => rfl
        | cons x xs =>
            rw [List.dropWhile_cons, if_neg]
            simp only [Bool.not_eq_true]
            apply h
            rw [← List.head?_reverse, hl]
            rfl
      rw [hr]
      rw [List.isEmpty_iff] at he
      rw [he, List.nil_append]
    · rw [if_neg he]

theorem mem_pyStrip {c : Char} {l : List Char} (h : c ∈ pyStrip l) : c ∈ l := by
  rw [pyStrip, pyStripR] at h
  rw [List.mem_reverse] at h
  have h1 := (@List.dropWhile_sublist _ ((pyStripL l).reverse) isPySpace).subset h
  rw [List.mem_reverse] at h1
  exact (List.dropWhile_sublist isPySpace).subset h1

theorem mem_slGo : ∀ (n : Nat) (l : List Char), l.length ≤ n →
    ∀ (cur out : List Char) (c : Char), out ∈ slGo l cur → c ∈ out →
    c ∈ l ∨ c ∈ cur := by
  intro n
  induction n with
  | zero =>
      intro l hl cur out c hout hc
      rw [List.length_eq_zero.mp (Nat.le_zero.mp hl)] at hout ⊢
      rw [slGo] at hout
      by_cases hcur : cur.isEmpty
      · simp [hcur] at hout
      · simp only [hcur, Bool.false_eq_true, if_false, List.mem_singleton] at hout
        subst hout
        exact Or.inr (List.mem_reverse.mp hc)
  | succ n ih =>
      intro l hl cur out c hout hc
      cases l with
      | nil =>
          rw [slGo] at hout
          by_cases hcur : cur.isEmpty
          · simp [hcur] at hout
          · simp only [hcur, Bool.false_eq_true, if_false, List.mem_singleton] at hout
            subst hout
            exact Or.inr (List.mem_reverse.mp hc)
      | cons x rest =>
          rw [slGo] at hout
          by_cases hx : isPyLineBreak x
          · simp only [hx, if_true, List.mem_cons] at hout
            rcases hout with hout | hout
            · subst hout
              exact Or.inr (List.mem_reverse.mp hc)
            · set rest2 := if x = '\x0d' && rest.head? = some '\n' then rest.tail else rest with hr2
              have hsub : rest2 ⊆ rest := by
                rw [hr2]
                split
                · intro d hd
                  exact (List.tail_sublist rest).subset hd
                · exact fun d hd => hd
              have hlen : rest2.length ≤ n := by
                have : rest2.length ≤ rest.length := by
                  rw [hr2]
                  split
                  · exact (List.tail_sublist rest).length_le
                  · exact le_refl _
                simp only [List.length_cons] at hl
                omega
              rcases ih rest2 hlen [] out c hout hc with h | h
              · exact Or.inl (List.mem_cons_of_mem x (hsub h))
              · simp at h
          · simp only [hx, Bool.false_eq_true, if_false] at hout
            have hlen : rest.length ≤ n := by
              simp only [List.length_cons] at hl
              omega
            rcases ih rest hlen (x :: cur) out c hout hc with h | h
            · exact Or.inl (List.mem_cons_of_mem x h)
            · rcases List.mem_cons.mp h with h | h
              · exact Or.inl (h ▸ List.mem_cons_self x rest)
              · exact Or.inr h
        
theorem mem_pySplitlines {c : Char} {l out : List Char}
    (hout : out ∈ pySplitlines l) (hc : c ∈ out) : c ∈ l := by
  rcases mem_slGo l.length l (le_refl _) [] out c hout hc with h | h
  · exact h
  · simp at h

theorem mem_joinNl {c : Char} : ∀ {ls : List (List Char)}, c ∈ joinNl ls →
    c = '\n' ∨ ∃ l ∈ ls, c ∈ l := by
  intro ls
  induction ls with
  | nil => intro h; simp [joinNl] at h
  | cons m rest ih =>
      intro h
      cases rest with
      | nil =>
          rw [show joinNl [m] = m from rfl] at h
          exact Or.inr ⟨m, by simp, h⟩
      | cons m2 r2 =>
          rw [show joinNl (m :: m2 :: r2) = m ++ '\n' :: joinNl (m2 :: r2) from rfl] at h
          rcases List.mem_append.mp h with h | h
          · exact Or.inr ⟨m, by simp, h⟩
          · rcases List.mem_cons.mp h with h | h
            · exact Or.inl h
            · rcases ih h with h | ⟨l2, hl2, hcl2⟩
              · exact Or.inl h
              · exact Or.inr ⟨l2, List.mem_cons_of_mem m hl2, hcl2⟩

theorem braceFree_stripCodeFences {t : List Char} (ht : braceFree t) :
    braceFree (stripCodeFences t) := by
  rw [stripCodeFences]
  by_cases he : t.isEmpty
  · rw [if_pos he]; exact ht
  · rw [if_neg he]
    by_cases hf : (startsBT (pyStrip t) && endsBT (pyStrip t)) = true
    · simp only [hf, if_true]
      intro c hc
      rcases mem_joinNl (mem_pyStrip hc) with h | ⟨l2, hl2, hcl2⟩
      · subst h; exact ⟨by decide, by decide⟩
      · have hl3 : l2 ∈ pySplitlines (pyStrip t) :=
          (List.drop_subset 1 _) (List.dropLast_subset _ hl2)
        exact ht c (mem_pyStrip (mem_pySplitlines hl3 hcl2))
    · simp only [hf, if_false]
      exact fun c hc => ht c (mem_pyStrip hc)

theorem stripCodeFences_no_fence {t : List Char} (ht : ¬ t.isEmpty = true)
    (hf : (startsBT (pyStrip t) && endsBT (pyStrip t)) = false) :
    stripCodeFences t = pyStrip t := by
  rw [stripCodeFences, if_neg ht]
  simp only [hf, Bool.false_eq_true, if_false]

/-- C6 (counterexample).  The raw text `5` contains no braces at all, yet
`_parse_json_strict` does not return `None`: the direct `json.loads` pass
succeeds and the parsed number is returned. -/
theorem c6_counterexample :
    parseJsonStrict "5".toList = some (Json.num ['5']) ∧
      braceFree "5".toList ∧ parseJsonStrict "5".toList ≠ none := by
  refine ⟨rfl, by decide, ?_⟩
  rw [show parseJsonStrict "5".toList = some (Json.num ['5']) from rfl]
  simp

/-- C6 (amended).  For commentary-wrapped objects the parser recovers the
inner object: if `pre` and `post` are brace-free, `j` parses as a JSON
object, the naive brace scan of `j` returns `j` itself, the trimmed whole
does not trigger the fence-stripping condition, and the whole text does not
itself parse directly, then `_parse_json_strict` returns the inner object
via balanced-brace extraction.  For raw text with no braces at all the
parser returns `None` exactly when the direct parse of the fence-stripped
text fails (a brace-free text that is itself valid JSON, such as `5`, is
returned as parsed). -/
theorem c6_parse_strict_amended :
    (∀ (pre j post : List Char) (o : List (List Char × Json)),
        braceFree pre → braceFree post →
        jsonLoads j = some (Json.obj o) →
        extractFirstJson j = some j →
        (startsBT (pyStrip (pre ++ j ++ post)) && endsBT (pyStrip (pre ++ j ++ post)))
          = false →
        jsonLoads (pyStrip (pre ++ j ++ post)) = none →
        parseJsonStrict (pre ++ j ++ post) = some (Json.obj o))
    ∧ (∀ t : List Char, braceFree t → jsonLoads (stripCodeFences t) = none →
        parseJsonStrict t = none) := by
  constructor
  · intro pre j post o hpre hpost hload hext hfence hdirect
    have hjne : j ≠ [] := by
      intro hj
      rw [hj] at hext
      simp [extractFirstJson] at hext
    have hext1 : extGo1 j = some j := by
      rw [extractFirstJson, if_neg (by simpa [List.isEmpty_iff] using hjne)] at hext
      exact hext
    obtain ⟨t0, hshape⟩ := extGo1_shape j hext1
    obtain ⟨p0, hlastj⟩ := extGo1_last j j hext1
    have hjhead : ∀ c, (j ++ post).head? = some c → isPySpace c = false := by
      intro c hc
      rw [List.head?_append_of_ne_nil j hjne, hshape] at hc
      cases hc
      decide
    have hjlast : ∀ c, (pyStripL pre ++ j).getLast? = some c → isPySpace c = false := by
      intro c hc
      rw [List.getLast?_append, hlastj, List.getLast?_concat] at hc
      cases hc
      decide
    have hdecomp : pyStrip (pre ++ j ++ post)
        = pyStripL pre ++ j ++ pyStripR post := by
      rw [List.append_assoc, pyStrip,
        pyStripL_append_of_head pre (j ++ post) hjhead,
        ← List.append_assoc,
        pyStripR_append_of_last (pyStripL pre ++ j) post hjlast]
    have hwne : (pre ++ j ++ post) ≠ [] := by
      simp [hjne]
    rw [parseJsonStrict, if_neg (by simpa [List.isEmpty_iff] using hwne)]
    rw [show stripCodeFences (pre ++ j ++ post) = pyStrip (pre ++ j ++ post) from
      stripCodeFences_no_fence (by simpa [List.isEmpty_iff] using hwne) hfence]
    rw [hdirect]
    have hpre2 : braceFree (pyStripL pre) := fun c hc =>
      hpre c ((List.dropWhile_sublist isPySpace).subset hc)
    have hextw : extractFirstJson (pyStrip (pre ++ j ++ post)) = some j := by
      rw [hdecomp, extractFirstJson, if_neg (by simp [hjne]), List.append_assoc,
        extGo1_skip (pyStripL pre) _ hpre2]
      exact extGo1_stable j _ hext1
    rw [hextw]
    dsimp only
    rw [if_neg (show ¬ j.isEmpty = true by simpa [List.isEmpty_iff] using hjne)]
    exact hload
  · intro t ht hdirect
    rw [parseJsonStrict]
    by_cases he : t.isEmpty
    · rw [if_pos he]
    · rw [if_neg he, hdirect]
      rw [show extractFirstJson (stripCodeFences t) = none from ?_]
      rw [extractFirstJson]
      by_cases h2 : (stripCodeFences t).isEmpty
      · rw [if_pos h2]
      · rw [if_neg h2]
        exact extGo1_none_of_braceFree _ (braceFree_stripCodeFences ht)

/-- C6 (witness).  The amended parser theorem instantiated on the concrete
text `Result: ` + object + ` ok` (the inner object is recovered) and
on the brace-free text `no data here` (the parser returns `None`). -/
theorem c6_witness :
    parseJsonStrict "Result: \x7b\"a\": 1\x7d ok".toList
        = some (Json.obj [("a".toList, Json.num ['1'])]) ∧
      parseJsonStrict "no data here".toList = none := by
  constructor
  · exact c6_parse_strict_amended.1 "Result: ".toList "\x7b\"a\": 1\x7d".toList
      " ok".toList [("a".toList, Json.num ['1'])]
      (by decide) (by decide) rfl rfl (by decide) rfl
  · exact c6_parse_strict_amended.2 "no data here".toList (by decide) rfl

/-! ## The chunking length bound -/

theorem pyStrip_length_le (l : List Char) : (pyStrip l).length ≤ l.length := by
  have h1 : (pyStripL l).length ≤ l.length :=
    (List.dropWhile_sublist isPySpace).length_le
  have h2 : (pyStripR (pyStripL l)).length ≤ (pyStripL l).length := by
    rw [pyStripR, List.length_reverse]
    calc (List.dropWhile isPySpace (pyStripL l).reverse).length
        ≤ (pyStripL l).reverse.length := (List.dropWhile_sublist isPySpace).length_le
      _ = (pyStripL l).length := List.length_reverse _
  exact le_trans h2 h1

theorem joinSp_length : ∀ ls : List (List Char), ls ≠ [] →
    (joinSp ls).length = (ls.map List.length).sum + (ls.length - 1) := by
  intro ls
  induction ls with
  | nil => intro h; exact absurd rfl h
  | cons l rest ih =>
      intro _
      cases rest with
      | nil => simp [joinSp]
      | cons l2 r2 =>
          rw [show joinSp (l :: l2 :: r2) = l ++ ' ' :: joinSp (l2 :: r2) from rfl]
          simp only [List.length_append, List.length_cons, List.map_cons,
            List.sum_cons]
          rw [ih (by simp)]
          simp only [List.map_cons, List.sum_cons, List.length_cons]
          omega

theorem count_nonempty_le_sum : ∀ ls : List (List Char),
    ls.countP (fun s => !s.isEmpty) ≤ (ls.map List.length).sum := by
  intro ls
  induction ls with
  | nil => simp
  | cons s rest ih =>
      rw [List.countP_cons]
      simp only [List.map_cons, List.sum_cons]
      by_cases hs : s.isEmpty
      · simp only [hs]
        simp
        omega
      · simp only [hs]
        have : 1 ≤ s.length := by
          cases s with
          | nil => simp at hs
          | cons a b => simp
        simp
        omega

theorem countP_split (p : List Char → Bool) : ∀ ls : List (List Char),
    ls.countP p + ls.countP (fun x => !(p x)) = ls.length := by
  intro ls
  induction ls with
  | nil => simp
  | cons s rest ih =>
      rw [List.countP_cons, List.countP_cons]
      by_cases hs : p s
      · simp [hs]
        omega
      · simp [hs]
        omega

theorem sentGo_ne_nil : ∀ (fuel : Nat) (cur : List Char) (prev : Option Char)
    (cs : List Char), sentGo fuel cur prev cs ≠ [] := by
  intro fuel
  induction fuel with
  | zero => intro cur prev cs; simp [sentGo]
  | succ fuel ih =>
      intro cur prev cs
      cases cs with
      | nil => simp [sentGo]
      | cons c rest =>
          rw [sentGo]
          split
          · simp
          · exact ih _ _ _

theorem sentGo_dropLast_ne_nil : ∀ (fuel : Nat) (cur : List Char)
    (prev : Option Char) (cs : List Char),
    (prevSentEnd prev = true → cur ≠ []) →
    ∀ s ∈ (sentGo fuel cur prev cs).dropLast, s ≠ [] := by
  intro fuel
  induction fuel with
  | zero => intro cur prev cs _ s hs; simp [sentGo] at hs
  | succ fuel ih =>
      intro cur prev cs hprev s hs
      cases cs with
      | nil => simp [sentGo] at hs
      | cons c rest =>
          rw [sentGo] at hs
          by_cases hb : prevSentEnd prev && isPySpace c
          · simp only [hb, if_true] at hs
            have hcur : cur ≠ [] := by
              simp only [Bool.and_eq_true] at hb
              exact hprev hb.1
            rcases hrec : sentGo fuel [] none
                (List.drop ((c :: rest).takeWhile isPySpace).length (c :: rest)) with
              _ | ⟨a, l⟩
            · exact absurd hrec (sentGo_ne_nil _ _ _ _)
            · rw [hrec] at hs
              rw [List.dropLast_cons_of_ne_nil (by simp)] at hs
              rcases List.mem_cons.mp hs with h | h
              · subst h; simpa using hcur
              · exact ih [] none _ (by simp [prevSentEnd]) s (by rw [hrec]; exact h)
          · simp only [hb, Bool.false_eq_true, if_false] at hs
            exact ih (c :: cur) (some c) rest (fun _ => by simp) s hs

theorem forcedSlices_bound (s : List Char) (maxLen : Nat) :
    ∀ p ∈ forcedSlices s maxLen, p.length ≤ maxLen := by
  intro p hp
  rw [forcedSlices] at hp
  have hp2 := List.mem_of_mem_filter hp
  rcases List.mem_map.mp hp2 with ⟨i, _, rfl⟩
  calc (pyStrip ((s.drop (i * maxLen)).take maxLen)).length
      ≤ ((s.drop (i * maxLen)).take maxLen).length := pyStrip_length_le _
    _ ≤ maxLen := by simp

theorem flush_bound (maxLen curLen : Nat) (current : List (List Char))
    (hne : ¬ current.isEmpty = true)
    (hsum : curLen = (current.map List.length).sum)
    (hmax : curLen ≤ maxLen)
    (hE : current.countP (fun s => s.isEmpty) ≤ 1) :
    (pyStrip (joinSp current)).length ≤ 2 * maxLen := by
  have hne2 : current ≠ [] := by simpa [List.isEmpty_iff] using hne
  have h1 : (pyStrip (joinSp current)).length ≤ (joinSp current).length :=
    pyStrip_length_le _
  rw [joinSp_length current hne2] at h1
  have h2 := count_nonempty_le_sum current
  have h3 := countP_split (fun s => s.isEmpty) current
  have h4 : current.countP (fun s => !s.isEmpty)
      = current.countP (fun s => !(fun t : List Char => t.isEmpty) s) := rfl
  omega

theorem chunkGo_bound (maxLen : Nat) :
    ∀ (sentences chunks current : List (List Char)) (curLen : Nat),
    (∀ s ∈ sentences.dropLast, s ≠ []) →
    curLen = (current.map List.length).sum →
    curLen ≤ maxLen →
    current.countP (fun s => s.isEmpty) ≤ (if sentences.isEmpty then 1 else 0) →
    (∀ ch ∈ chunks, ch.length ≤ 2 * maxLen) →
    ∀ ch ∈ chunkGo maxLen sentences chunks current curLen,
      ch.length ≤ 2 * maxLen := by
  intro sentences
  induction sentences with
  | nil =>
      intro chunks current curLen _ hsum hmax hE hchunks ch hch
      rw [chunkGo] at hch
      by_cases hcur : current.isEmpty
      · rw [if_pos hcur] at hch
        exact hchunks ch hch
      · rw [if_neg hcur] at hch
        rcases List.mem_append.mp hch with h | h
        · exact hchunks ch h
        · rw [List.mem_singleton] at h
          subst h
          exact flush_bound maxLen curLen current hcur hsum hmax (by simpa using hE)
  | cons s rest ih =>
      intro chunks current curLen hsent hsum hmax hE hchunks ch hch
      rw [chunkGo] at hch
      have hE0 : current.countP (fun t => t.isEmpty) ≤ if rest.isEmpty then 1 else 0 := by
        simp only [List.isEmpty_cons, Bool.false_eq_true, if_false] at hE
        split
        · omega
        · omega
      have hsentrest : ∀ t ∈ rest.dropLast, t ≠ [] := by
        intro t ht
        cases rest with
        | nil => simp at ht
        | cons r2 rs =>
            exact hsent t (by
              rw [List.dropLast_cons_of_ne_nil (by simp)]
              exact List.mem_cons_of_mem s ht)
      by_cases hfit : curLen + s.length ≤ maxLen
      · rw [if_pos hfit] at hch
        refine ih chunks (current ++ [s]) (curLen + s.length) hsentrest ?_ hfit ?_
          hchunks ch hch
        · simp [hsum]
        · rw [List.countP_append]
          by_cases hrest : rest = []
          · subst hrest
            simp only [List.isEmpty_nil, if_true]
            simp only [List.isEmpty_cons, Bool.false_eq_true, if_false] at hE
            have h2 : List.countP (fun t => t.isEmpty) [s] ≤ 1 := by
              rw [List.countP_cons, List.countP_nil]
              split <;> omega
            omega
          · have hs_ne : s ≠ [] := by
              apply hsent
              rw [List.dropLast_cons_of_ne_nil hrest]
              simp
            have h1 : List.countP (fun t => t.isEmpty) [s] = 0 := by
              simp [List.countP_cons, List.isEmpty_iff, hs_ne]
            rw [h1]
            simpa [hrest] using hE0
      · rw [if_neg hfit] at hch
        have hs_len : 1 ≤ s.length := by omega
        have hE00 : current.countP (fun t => t.isEmpty) = 0 := by
          simp only [List.isEmpty_cons, Bool.false_eq_true, if_false] at hE
          omega
        have hchunks1 : ∀ ch2 ∈
            (if current.isEmpty then chunks
              else chunks ++ [pyStrip (joinSp current)]),
            ch2.length ≤ 2 * maxLen := by
          intro ch2 hch2
          by_cases hcur : current.isEmpty
          · rw [if_pos hcur] at hch2
            exact hchunks ch2 hch2
          · rw [if_neg hcur] at hch2
            rcases List.mem_append.mp hch2 with h | h
            · exact hchunks ch2 h
            · rw [List.mem_singleton] at h
              subst h
              exact flush_bound maxLen curLen current hcur hsum hmax (by omega)
        by_cases hlong : maxLen < s.length
        · rw [if_pos hlong] at hch
          refine ih _ [] 0 hsentrest (by simp) (by omega) (by simp) ?_ ch hch
          intro ch2 hch2
          rcases List.mem_append.mp hch2 with h | h
          · exact hchunks1 ch2 h
          · exact le_trans (forcedSlices_bound s maxLen ch2 h) (by omega)
        · rw [if_neg hlong] at hch
          refine ih _ [s] s.length hsentrest (by simp) (by omega) ?_ hchunks1 ch hch
          have hs_ne : s ≠ [] := by
            intro h
            rw [h] at hs_len
            simp at hs_len
          simp [List.countP_cons, List.isEmpty_iff, hs_ne]

theorem chunkLongClause_bound (s : List Char) (maxLen : Nat) :
    ∀ c ∈ chunkLongClause s maxLen, c.length ≤ 2 * maxLen := by
  intro c hc
  rw [chunkLongClause] at hc
  by_cases hlen : s.length ≤ maxLen
  · rw [if_pos hlen] at hc
    by_cases hs : s.isEmpty
    · simp [hs] at hc
    · simp only [hs, Bool.false_eq_true, if_false, List.mem_singleton] at hc
      subst hc
      omega
  · rw [if_neg hlen] at hc
    refine chunkGo_bound maxLen (pySentSplit s) [] [] 0 ?_ (by simp) (by omega)
      (by simp) (by simp) c hc
    exact sentGo_dropLast_ne_nil _ [] none s (by simp [prevSentEnd])

/-! ## The assembly invariant -/

theorem mergeIntoLast_map_id (minLen : Nat) (c : List Char) :
    ∀ cl : List Clause,
    (mergeIntoLast minLen c cl).map (fun x => x.id) = cl.map (fun x => x.id) := by
  intro cl
  induction cl with
  | nil => rfl
  | cons a rest ih =>
      cases rest with
      | nil => rfl
      | cons b r2 =>
          rw [show mergeIntoLast minLen c (a :: b :: r2)
              = a :: mergeIntoLast minLen c (b :: r2) from rfl]
          simp only [List.map_cons]
          rw [ih]
          simp

theorem mem_mergeIntoLast (minLen : Nat) (c : List Char) :
    ∀ (cl : List Clause) (x : Clause), x ∈ mergeIntoLast minLen c cl →
      x ∈ cl ∨ ∃ a ∈ cl, x =
        { a with
            text := a.text ++ '\n' :: '\n' :: c,
            tooShort := decide ((a.text ++ '\n' :: '\n' :: c).length < minLen) } := by
  intro cl
  induction cl with
  | nil => intro x hx; simp [mergeIntoLast] at hx
  | cons a rest ih =>
      intro x hx
      cases rest with
      | nil =>
          rw [show mergeIntoLast minLen c [a] = [{ a with
              text := a.text ++ '\n' :: '\n' :: c,
              tooShort := decide ((a.text ++ '\n' :: '\n' :: c).length < minLen) }]
            from rfl] at hx
          rw [List.mem_singleton] at hx
          exact Or.inr ⟨a, by simp, hx⟩
      | cons b r2 =>
          rw [show mergeIntoLast minLen c (a :: b :: r2)
              = a :: mergeIntoLast minLen c (b :: r2) from rfl] at hx
          rcases List.mem_cons.mp hx with h | h
          · exact Or.inl (h ▸ List.mem_cons_self a (b :: r2))
          · rcases ih x h with h2 | ⟨a2, ha2, he2⟩
            · exact Or.inl (List.mem_cons_of_mem a h2)
            · exact Or.inr ⟨a2, List.mem_cons_of_mem a ha2, he2⟩

theorem addChunk_inv {minLen : Nat} {st : List Clause × Nat} (c0 : List Char)
    (h : StInv minLen st) : StInv minLen (addChunk minLen st c0) := by
  obtain ⟨h1, h2, h3, h4⟩ := h
  rw [addChunk]
  by_cases hts : decide ((pyStrip c0).length < minLen) = true
  · rw [if_pos hts]
    by_cases hemp : st.1.isEmpty
    · rw [if_pos hemp]
      have hnil : st.1 = [] := by simpa [List.isEmpty_iff] using hemp
      have hz : st.2 = 0 := by rw [h1, hnil]; rfl
      refine ⟨by rw [hnil, hz]; rfl, by rw [hnil, hz]; rfl, ?_, ?_⟩
      · intro cl hcl hid
        rw [hnil] at hcl
        simp only [List.nil_append, List.mem_singleton] at hcl
        subst hcl
        exact absurd (by simp [hz]) hid
      · intro cl hcl
        rw [hnil] at hcl
        simp only [List.nil_append, List.mem_singleton] at hcl
        subst hcl
        simp
    · rw [if_neg hemp]
      refine ⟨?_, ?_, ?_, ?_⟩
      · rw [h1]
        have hm : (mergeIntoLast minLen (pyStrip c0) st.1).map (fun x => x.id)
            = st.1.map (fun x => x.id) := mergeIntoLast_map_id _ _ _
        have := congrArg List.length hm
        simpa using this.symm
      · rw [mergeIntoLast_map_id]
        exact h2
      · intro cl hcl hid
        rcases mem_mergeIntoLast _ _ _ _ hcl with h | ⟨a, ha, he⟩
        · exact h3 cl h hid
        · have hid2 : a.id ≠ 0 := by
            intro h0
            exact hid (by rw [he]; simpa using h0)
          obtain ⟨_, hlen⟩ := h3 a ha hid2
          have h5 : ¬ (a.text ++ '\n' :: '\n' :: pyStrip c0).length < minLen := by
            simp only [List.length_append, List.length_cons]
            omega
          constructor
          · rw [he]
            show decide ((a.text ++ '\n' :: '\n' :: pyStrip c0).length < minLen) = false
            simp only [decide_eq_false_iff_not]
            exact h5
          · rw [he]
            show minLen ≤ (a.text ++ '\n' :: '\n' :: pyStrip c0).length
            simp only [List.length_append]
            omega
      · intro cl hcl
        rcases mem_mergeIntoLast _ _ _ _ hcl with h | ⟨a, ha, he⟩
        · exact h4 cl h
        · have := h4 a ha
          rw [he]
          show a.length ≤ (a.text ++ '\n' :: '\n' :: pyStrip c0).length
          simp only [List.length_append]
          omega
  · rw [if_neg hts]
    have hts2 : ¬ (pyStrip c0).length < minLen := by simpa using hts
    refine ⟨by simp [h1], ?_, ?_, ?_⟩
    · simp only [List.map_append, h2, List.map_cons, List.map_nil]
      rw [h1, ← h1, List.range_succ]
    · intro cl hcl hid
      rcases List.mem_append.mp hcl with h | h
      · exact h3 cl h hid
      · rw [List.mem_singleton] at h
        subst h
        refine ⟨by simp [hts2], ?_⟩
        show minLen ≤ (pyStrip c0).length
        omega
    · intro cl hcl
      rcases List.mem_append.mp hcl with h | h
      · exact h4 cl h
      · rw [List.mem_singleton] at h
        subst h
        simp

theorem foldl_addChunk_inv (minLen : Nat) :
    ∀ (chunks : List (List Char)) (st : List Clause × Nat), StInv minLen st →
    StInv minLen (chunks.foldl (addChunk minLen) st) := by
  intro chunks
  induction chunks with
  | nil => intro st h; exact h
  | cons c cs ih => intro st h; exact ih _ (addChunk_inv c h)

theorem partsFold_inv (minLen maxLen : Nat) :
    ∀ (parts : List (List Char)) (st : List Clause × Nat), StInv minLen st →
    StInv minLen (parts.foldl
      (fun st part => (chunkLongClause part maxLen).foldl (addChunk minLen) st) st) := by
  intro parts
  induction parts with
  | nil => intro st h; exact h
  | cons p ps ih => intro st h; exact ih _ (foldl_addChunk_inv minLen _ _ h)

theorem StInv_nil (minLen : Nat) : StInv minLen (([] : List Clause), 0) :=
  ⟨rfl, rfl, by simp, by simp⟩

theorem addChunk_long {minLen : Nat} (st : List Clause × Nat) (c0 : List Char)
    (h : minLen ≤ (pyStrip c0).length) :
    addChunk minLen st c0
      = (st.1 ++ [⟨st.2, pyStrip c0, (pyStrip c0).length,
          decide ((pyStrip c0).length < minLen)⟩], st.2 + 1) := by
  rw [addChunk]
  rw [if_neg (by simp; omega)]

theorem foldl_addChunk_long (minLen : Nat) :
    ∀ (chunks : List (List Char)) (st : List Clause × Nat),
    (∀ c0 ∈ chunks, minLen ≤ (pyStrip c0).length) →
    ∀ cl ∈ (chunks.foldl (addChunk minLen) st).1, cl ∈ st.1 ∨
      ∃ c0 ∈ chunks, cl.text = pyStrip c0 ∧ cl.length = cl.text.length ∧
        cl.tooShort = false := by
  intro chunks
  induction chunks with
  | nil => intro st _ cl hcl; exact Or.inl hcl
  | cons c cs ih =>
      intro st hlong cl hcl
      rw [List.foldl_cons, addChunk_long st c (hlong c (by simp))] at hcl
      rcases ih _ (fun c2 hc2 => hlong c2 (List.mem_cons_of_mem c hc2)) cl hcl with
        h | ⟨c0, hc0, he⟩
      · rcases List.mem_append.mp h with h | h
        · exact Or.inl h
        · rw [List.mem_singleton] at h
          subst h
          refine Or.inr ⟨c, by simp, rfl, rfl, ?_⟩
          have := hlong c (by simp)
          simp only [decide_eq_false_iff_not]
          omega
      · exact Or.inr ⟨c0, List.mem_cons_of_mem c hc0, he⟩

theorem partsFold_long (minLen maxLen : Nat) :
    ∀ (parts : List (List Char)) (st : List Clause × Nat),
    (∀ p ∈ parts, ∀ c0 ∈ chunkLongClause p maxLen, minLen ≤ (pyStrip c0).length) →
    ∀ cl ∈ (parts.foldl
        (fun st part => (chunkLongClause part maxLen).foldl (addChunk minLen) st)
        st).1,
      cl ∈ st.1 ∨ ∃ p ∈ parts, ∃ c0 ∈ chunkLongClause p maxLen,
        cl.text = pyStrip c0 ∧ cl.length = cl.text.length ∧ cl.tooShort = false := by
  intro parts
  induction parts with
  | nil => intro st _ cl hcl; exact Or.inl hcl
  | cons p ps ih =>
      intro st hlong cl hcl
      rw [List.foldl_cons] at hcl
      rcases ih _ (fun p2 hp2 => hlong p2 (List.mem_cons_of_mem p hp2)) cl hcl with
        h | ⟨p2, hp2, he⟩
      · rcases foldl_addChunk_long minLen _ st (hlong p (by simp)) cl h with
          h2 | ⟨c0, hc0, he2⟩
        · exact Or.inl h2
        · exact Or.inr ⟨p, by simp, c0, hc0, he2⟩
      · exact Or.inr ⟨p2, List.mem_cons_of_mem p hp2, he⟩

theorem StInv_assembledState (minLen maxLen : Nat) (parts : List (List Char)) :
    StInv minLen (assembledState minLen maxLen parts) :=
  partsFold_inv minLen maxLen parts ([], 0) (StInv_nil minLen)

theorem mem_assembleClauses {minLen maxLen : Nat} {parts : List (List Char)}
    {cl : Clause} (h : cl ∈ assembleClauses minLen maxLen parts) :
    cl ∈ (assembledState minLen maxLen parts).1 := by
  rw [assembleClauses] at h
  split at h
  · exact List.mem_of_mem_filter h
  · exact h

theorem assembleClauses_ids (minLen maxLen : Nat) (parts : List (List Char)) :
    (assembleClauses minLen maxLen parts).map (fun c => c.id)
        = List.range (assembleClauses minLen maxLen parts).length
    ∨ (assembleClauses minLen maxLen parts).map (fun c => c.id)
        = (List.range (assembleClauses minLen maxLen parts).length).map
            (fun i => i + 1) := by
  obtain ⟨h1, h2, h3, _⟩ := StInv_assembledState minLen maxLen parts
  rw [assembleClauses]
  by_cases hlen : 1 < (assembledState minLen maxLen parts).1.length
  · rw [if_pos hlen]
    rcases hc : (assembledState minLen maxLen parts).1 with _ | ⟨c0, tl⟩
    · rw [hc] at hlen; simp at hlen
    · rw [hc] at h2 h1
      rw [h1] at h2
      simp only [List.length_cons] at h2
      rw [List.range_succ_eq_map] at h2
      simp only [List.map_cons] at h2
      have hc0 : c0.id = 0 := (List.cons.injEq _ _ _ _).mp h2 |>.1
      have htl : tl.map (fun c => c.id) = (List.range tl.length).map (fun i => i + 1) :=
        (List.cons.injEq _ _ _ _).mp h2 |>.2
      have htlid : ∀ cl ∈ tl, cl.id ≠ 0 := by
        intro cl hcl
        have : cl.id ∈ tl.map (fun c => c.id) := List.mem_map_of_mem _ hcl
        rw [htl] at this
        rcases List.mem_map.mp this with ⟨i, _, hi⟩
        omega
      have htlpred : ∀ cl ∈ tl,
          (!(cl.tooShort && decide (cl.length < minLen))) = true := by
        intro cl hcl
        have hts := (h3 cl (by rw [hc]; exact List.mem_cons_of_mem c0 hcl)
          (htlid cl hcl)).1
        simp [hts]
      rw [List.filter_cons]
      by_cases hp : (!(c0.tooShort && decide (c0.length < minLen))) = true
      · rw [if_pos hp, List.filter_eq_self.mpr htlpred]
        left
        simp only [List.map_cons, List.length_cons]
        rw [List.range_succ_eq_map]
        exact h2
      · rw [if_neg hp, List.filter_eq_self.mpr htlpred]
        right
        rw [htl]
  · rw [if_neg hlen]
    left
    rw [h2, h1]

/-- C1 (counterexample).  On the document whose first paragraph `ab` is below
`min_len` and whose second paragraph is long enough, the first clause is
created with id 0 and flag `too_short`, the second gets id 1, and the final
pass drops the first without renumbering: the returned ids are `[1]`, not
`0..N-1`. -/
theorem c1_counterexample :
    (splitIntoClauses
        "ab\n\ncccccccccccccccccccccccccccccccccccccccc".toList 40 2000).map
        (fun c => c.id) = [1] ∧
      (splitIntoClauses
          "ab\n\ncccccccccccccccccccccccccccccccccccccccc".toList 40 2000).map
          (fun c => c.id)
        ≠ List.range (splitIntoClauses
            "ab\n\ncccccccccccccccccccccccccccccccccccccccc".toList 40 2000).length := by
  constructor
  · decide
  · decide

/-- C1 (amended).  The ids returned by `split_into_clauses` are consecutive
and increasing: they are exactly `0..N-1` unless the final pass dropped the
still-too-short first clause (only the clause with id 0 can be dropped), in
which case they are `1..N`. -/
theorem c1_id_contiguity_amended (text : List Char) (minLen maxLen : Nat)
    (hmax : 1 ≤ maxLen) :
    (splitIntoClauses text minLen maxLen).map (fun c => c.id)
        = List.range (splitIntoClauses text minLen maxLen).length
      ∨ (splitIntoClauses text minLen maxLen).map (fun c => c.id)
        = (List.range (splitIntoClauses text minLen maxLen).length).map
            (fun i => i + 1) := by
  rw [splitIntoClauses]
  by_cases h : (normalizeWs text).isEmpty
  · rw [if_pos h]
    left
    rfl
  · rw [if_neg h]
    exact assembleClauses_ids minLen maxLen _

/-- C1 (witness).  The amended id theorem instantiated on a concrete
document and the default thresholds. -/
theorem c1_witness :
    (splitIntoClauses "hello world, a concrete document long enough.".toList
        40 2000).map (fun c => c.id)
      = List.range (splitIntoClauses
          "hello world, a concrete document long enough.".toList 40 2000).length
    ∨ (splitIntoClauses "hello world, a concrete document long enough.".toList
        40 2000).map (fun c => c.id)
      = (List.range (splitIntoClauses
          "hello world, a concrete document long enough.".toList 40 2000).length).map
          (fun i => i + 1) :=
  c1_id_contiguity_amended _ 40 2000 (by omega)

theorem mem_splitIntoClauses {text : List Char} {minLen maxLen : Nat} {cl : Clause}
    (h : cl ∈ splitIntoClauses text minLen maxLen) :
    cl ∈ (assembledState minLen maxLen (computeParts (normalizeWs text))).1 := by
  rw [splitIntoClauses] at h
  split at h
  · simp at h
  · exact mem_assembleClauses h

/-- C2 (counterexample).  On the document whose second paragraph `bb` is
below `min_len`, the short fragment is merged into the first clause: the
text becomes the 10-character `aaaaaa\n\nbb`, but the recorded `length`
stays 6 — the `length` field does not equal `len(text)` for a clause
extended by the merge step. -/
theorem c2_counterexample :
    splitIntoClauses "aaaaaa\n\nbb".toList 5 100
        = [⟨0, "aaaaaa\n\nbb".toList, 6, false⟩] ∧
      ∃ cl ∈ splitIntoClauses "aaaaaa\n\nbb".toList 5 100,
        cl.length ≠ cl.text.length := by
  constructor
  · decide
  · decide

/-- C2 (amended).  Every clause's recorded `length` is at most the character
count of its `text`, with equality exactly for clauses never extended by the
short-fragment merge: when every chunk of every candidate block meets
`min_len` (so no merge happens), `length` equals `len(text)` for every
returned clause.  A merged clause keeps its pre-merge `length` while its
text grows. -/
theorem c2_length_field_amended (text : List Char) (minLen maxLen : Nat)
    (hmax : 1 ≤ maxLen) :
    (∀ cl ∈ splitIntoClauses text minLen maxLen, cl.length ≤ cl.text.length)
    ∧ ((∀ p ∈ computeParts (normalizeWs text),
          ∀ c0 ∈ chunkLongClause p maxLen, minLen ≤ (pyStrip c0).length) →
        ∀ cl ∈ splitIntoClauses text minLen maxLen,
          cl.length = cl.text.length) := by
  constructor
  · intro cl hcl
    obtain ⟨_, _, _, h4⟩ :=
      StInv_assembledState minLen maxLen (computeParts (normalizeWs text))
    exact h4 cl (mem_splitIntoClauses hcl)
  · intro hlong cl hcl
    rcases partsFold_long minLen maxLen (computeParts (normalizeWs text)) ([], 0)
        hlong cl (mem_splitIntoClauses hcl) with h | ⟨_, _, _, _, _, he, _⟩
    · simp at h
    · exact he

/-- C2 (witness).  The amended length theorem instantiated on a concrete
document where no chunk is short, so every clause's `length` equals
`len(text)`. -/
theorem c2_witness :
    (splitIntoClauses "hello world, plenty of text.".toList 3 100).all
      (fun cl => cl.length == cl.text.length) = true := by
  rw [List.all_eq_true]
  intro cl hcl
  have h := (c2_length_field_amended "hello world, plenty of text.".toList 3 100
    (by omega)).2 (by decide) cl hcl
  simpa using h

/-- C4 (counterexample).  On the document `aaaa. bbbb.` with
`max_len = 10`, the two sentences (each of length 5, none exceeding
`max_len`) are accumulated into one chunk — the accumulator counts only the
sentence characters, but `" ".join` re-inserts the separator space — so the
returned clause has 11 characters, exceeding `max_len` although no single
sentence exceeds it. -/
theorem c4_counterexample :
    splitIntoClauses "aaaa. bbbb.".toList 1 10
        = [⟨0, "aaaa. bbbb.".toList, 11, false⟩] ∧
      10 < ("aaaa. bbbb.".toList).length ∧
      (∀ s ∈ pySentSplit "aaaa. bbbb.".toList, s.length ≤ 10) := by
  refine ⟨by decide, by decide, by decide⟩

/-- C4 (amended).  Every chunk produced by `_chunk_long_clause` has at most
`2 * max_len` characters (a block within `max_len` is returned whole, a
forced slice of an over-long sentence is at most `max_len`, and an
accumulated chunk can exceed `max_len` only by the re-inserted join spaces,
staying within `2 * max_len`); consequently, when no chunk falls below
`min_len` (so the short-fragment merge never extends a clause), every
returned clause's text is at most `2 * max_len` characters. -/
theorem c4_length_bound_amended (maxLen : Nat) (hmax : 1 ≤ maxLen) :
    (∀ s : List Char, ∀ c ∈ chunkLongClause s maxLen, c.length ≤ 2 * maxLen)
    ∧ (∀ (text : List Char) (minLen : Nat),
        (∀ p ∈ computeParts (normalizeWs text),
          ∀ c0 ∈ chunkLongClause p maxLen, minLen ≤ (pyStrip c0).length) →
        ∀ cl ∈ splitIntoClauses text minLen maxLen,
          cl.text.length ≤ 2 * maxLen) := by
  constructor
  · intro s c hc
    exact chunkLongClause_bound s maxLen c hc
  · intro text minLen hlong cl hcl
    rcases partsFold_long minLen maxLen (computeParts (normalizeWs text)) ([], 0)
        hlong cl (mem_splitIntoClauses hcl) with h | ⟨p, _, c0, hc0, he, _, _⟩
    · simp at h
    · rw [he]
      exact le_trans (pyStrip_length_le c0) (chunkLongClause_bound p maxLen c0 hc0)

/-- C4 (witness).  The amended bound theorem instantiated on a concrete
document and `max_len = 100`: every clause's text stays within 200
characters. -/
theorem c4_witness :
    (splitIntoClauses "hello there, quite enough text.".toList 3 100).all
      (fun cl => decide (cl.text.length ≤ 2 * 100)) = true := by
  rw [List.all_eq_true]
  intro cl hcl
  have h := (c4_length_bound_amended 100 (by omega)).2
    "hello there, quite enough text.".toList 3 (by decide) cl hcl
  simpa using h

/-! ## The orchestrator and the precedent resolver -/

/-- C10.  Because the module-level flag `CHROMA_AVAILABLE` is the constant
`False`, `_query_precedents` returns exactly the keyword fallback on the
same clause text and `top_k`, for every collection value, clause text and
`top_k` — the semantic-store primary path is never taken. -/
theorem c10_query_is_fallback :
    CHROMA_AVAILABLE = false ∧
      ∀ (collection : Option StoreFn) (corpus : Option (List (List Char)))
        (clauseText : List Char) (topK : Nat),
        queryPrecedents collection corpus clauseText topK
          = fallbackPrecedents corpus clauseText topK := by
  refine ⟨rfl, ?_⟩
  intro collection corpus clauseText topK
  rfl

theorem analyzeGo_ids (llm : List Char → Except (List Char) Json)
    (collection : Option StoreFn) (corpus : Option (List (List Char)))
    (clock : Nat → List Char) (topK : Nat) :
    ∀ (cls : List Clause) (k : Nat),
    (analyzeGo llm collection corpus clock topK cls k).1.map (fun r => r.clauseId)
        = (cls.filter (fun cl => !(pyStrip cl.text).isEmpty)).map (fun cl => cl.id)
    ∧ (analyzeGo llm collection corpus clock topK cls k).2.map (fun t => t.clauseId)
        = (cls.filter (fun cl => !(pyStrip cl.text).isEmpty)).map (fun cl => cl.id) := by
  intro cls
  induction cls with
  | nil => intro k; exact ⟨rfl, rfl⟩
  | cons cl rest ih =>
      intro k
      rw [analyzeGo, List.filter_cons]
      by_cases he : (pyStrip cl.text).isEmpty
      · simp only [he, if_true, Bool.not_true, Bool.false_eq_true, if_false]
        exact ih k
      · simp only [he, Bool.false_eq_true, if_false, Bool.not_false, if_true]
        refine ⟨?_, ?_⟩
        · simp only [List.map_cons]
          rw [(ih (k + 1)).1]
        · simp only [List.map_cons]
          rw [(ih (k + 1)).2]

theorem analyzeGo_degraded (llm : List Char → Except (List Char) Json)
    (collection : Option StoreFn) (corpus : Option (List (List Char)))
    (clock : Nat → List Char) (topK : Nat)
    (hfail : ∀ p, ∃ e, llm p = Except.error e) :
    ∀ (cls : List Clause) (k : Nat),
    ∀ r ∈ (analyzeGo llm collection corpus clock topK cls k).1,
      r.analysis = degradedAnalysis := by
  intro cls
  induction cls with
  | nil => intro k r hr; simp [analyzeGo] at hr
  | cons cl rest ih =>
      intro k r hr
      rw [analyzeGo] at hr
      by_cases he : (pyStrip cl.text).isEmpty
      · simp only [he, if_true] at hr
        exact ih k r hr
      · simp only [he, Bool.false_eq_true, if_false] at hr
        rcases List.mem_cons.mp hr with h | h
        · subst h
          obtain ⟨e, hee⟩ := hfail (mkUserPrompt (pyStrip cl.text))
          simp only [hee]
        · exact ih (k + 1) r h

/-- C3.  When every model-client call fails, `analyze_document_text` still
returns exactly one result per processed clause with non-empty trimmed
text — in order, identified by the clause ids — and every result carries
the degraded analysis: `risk_score` 0 and the non-empty reasons list
`["llm_error"]`; no exception reaches the caller (the model is total). -/
theorem c3_batch_resilience (llm : List Char → Except (List Char) Json)
    (corpus : Option (List (List Char))) (clock : Nat → List Char)
    (text : List Char) (maxClauses : Option Nat) (topK : Nat)
    (hfail : ∀ p, ∃ e, llm p = Except.error e) :
    (analyzeDocumentText llm corpus clock text maxClauses topK).1.map
        (fun r => r.clauseId)
      = ((processedClauses text maxClauses).filter
          (fun cl => !(pyStrip cl.text).isEmpty)).map (fun cl => cl.id)
    ∧ ∀ r ∈ (analyzeDocumentText llm corpus clock text maxClauses topK).1,
        r.analysis = degradedAnalysis
        ∧ objGet r.analysis riskKey = some (Json.num ['0'])
        ∧ ∃ rs, objGet r.analysis reasonsKey = some (Json.arr rs) ∧ rs ≠ [] := by
  rw [analyzeDocumentText]
  by_cases hsplit : (splitIntoClauses text DEFAULT_MIN_LEN DEFAULT_MAX_LEN).isEmpty
  · rw [if_pos hsplit]
    have hnil : splitIntoClauses text DEFAULT_MIN_LEN DEFAULT_MAX_LEN = [] := by
      simpa [List.isEmpty_iff] using hsplit
    constructor
    · rw [processedClauses.eq_def]
      cases maxClauses with
      | none => rw [hnil]; rfl
      | some m => rw [hnil]; simp
    · intro r hr
      simp at hr
  · rw [if_neg hsplit]
    constructor
    · exact (analyzeGo_ids llm none corpus clock topK _ 0).1
    · intro r hr
      have hd := analyzeGo_degraded llm none corpus clock topK hfail _ 0 r hr
      refine ⟨hd, ?_, ?_⟩
      · rw [hd]
        rfl
      · rw [hd]
        exact ⟨[Json.str "llm_error".toList], rfl, by simp⟩

/-- C3 (witness).  The resilience theorem instantiated on a concrete
document and an always-failing model client: the single eligible clause
yields exactly one result, with the degraded analysis. -/
theorem c3_witness :
    (analyzeDocumentText (fun _ => Except.error "boom".toList) none (fun _ => [])
        "a contract clause of respectable length, for testing.".toList
        (some 20) 3).1.map (fun r => r.clauseId)
      = ((processedClauses
          "a contract clause of respectable length, for testing.".toList
          (some 20)).filter (fun cl => !(pyStrip cl.text).isEmpty)).map
          (fun cl => cl.id) :=
  (c3_batch_resilience (fun _ => Except.error "boom".toList) none (fun _ => [])
    "a contract clause of respectable length, for testing.".toList (some 20) 3
    (fun p => ⟨"boom".toList, rfl⟩)).1

theorem splitIds_pairwise (text : List Char) (minLen maxLen : Nat) :
    ((splitIntoClauses text minLen maxLen).map (fun c => c.id)).Pairwise
      (fun a b => a < b) := by
  rw [splitIntoClauses]
  by_cases h : (normalizeWs text).isEmpty
  · rw [if_pos h]
    simp
  · rw [if_neg h]
    rcases assembleClauses_ids minLen maxLen (computeParts (normalizeWs text))
      with h2 | h2
    · rw [h2]
      exact List.pairwise_lt_range _
    · rw [h2]
      rw [List.pairwise_map]
      exact (List.pairwise_lt_range _).imp (by omega)

/-- C9.  `analyze_document_text` processes exactly the first `max_clauses`
clauses: with `max_clauses = m`, the results and the trace entries are in
bijection (by clause id, in order) with the eligible clauses among the
first `m`, and a clause beyond the first `m` produces no result and no
trace entry (clause ids are strictly increasing, so the dropped ids never
occur among the processed ones). -/
theorem c9_max_clauses_truncation (llm : List Char → Except (List Char) Json)
    (corpus : Option (List (List Char))) (clock : Nat → List Char)
    (text : List Char) (topK : Nat) (m : Nat) :
    (analyzeDocumentText llm corpus clock text (some m) topK).1.map
        (fun r => r.clauseId)
      = (((splitIntoClauses text DEFAULT_MIN_LEN DEFAULT_MAX_LEN).take m).filter
          (fun cl => !(pyStrip cl.text).isEmpty)).map (fun cl => cl.id)
    ∧ (analyzeDocumentText llm corpus clock text (some m) topK).2.map
        (fun t => t.clauseId)
      = (((splitIntoClauses text DEFAULT_MIN_LEN DEFAULT_MAX_LEN).take m).filter
          (fun cl => !(pyStrip cl.text).isEmpty)).map (fun cl => cl.id)
    ∧ ∀ cl ∈ (splitIntoClauses text DEFAULT_MIN_LEN DEFAULT_MAX_LEN).drop m,
        (∀ r ∈ (analyzeDocumentText llm corpus clock text (some m) topK).1,
          r.clauseId ≠ cl.id)
        ∧ (∀ t ∈ (analyzeDocumentText llm corpus clock text (some m) topK).2,
          t.clauseId ≠ cl.id) := by
  have hrel : ∀ x ∈ ((splitIntoClauses text DEFAULT_MIN_LEN DEFAULT_MAX_LEN).take
        m).map (fun c => c.id),
      ∀ y ∈ ((splitIntoClauses text DEFAULT_MIN_LEN DEFAULT_MAX_LEN).drop m).map
        (fun c => c.id), x < y := by
    have hpw := splitIds_pairwise text DEFAULT_MIN_LEN DEFAULT_MAX_LEN
    rw [← List.take_append_drop m
      (splitIntoClauses text DEFAULT_MIN_LEN DEFAULT_MAX_LEN), List.map_append]
      at hpw
    exact (List.pairwise_append.mp hpw).2.2
  rw [analyzeDocumentText]
  by_cases hsplit : (splitIntoClauses text DEFAULT_MIN_LEN DEFAULT_MAX_LEN).isEmpty
  · rw [if_pos hsplit]
    have hnil : splitIntoClauses text DEFAULT_MIN_LEN DEFAULT_MAX_LEN = [] := by
      simpa [List.isEmpty_iff] using hsplit
    refine ⟨by rw [hnil]; simp, by rw [hnil]; simp, ?_⟩
    intro cl hcl
    rw [hnil] at hcl
    simp at hcl
  · rw [if_neg hsplit]
    have hids := analyzeGo_ids llm none corpus clock topK
      ((splitIntoClauses text DEFAULT_MIN_LEN DEFAULT_MAX_LEN).take m) 0
    refine ⟨hids.1, hids.2, ?_⟩
    intro cl hcl
    have hy : cl.id ∈ ((splitIntoClauses text DEFAULT_MIN_LEN
        DEFAULT_MAX_LEN).drop m).map (fun c => c.id) :=
      List.mem_map_of_mem _ hcl
    constructor
    · intro r hr
      have hx : r.clauseId ∈ List.map (fun q : AnalysisRes => q.clauseId)
          (analyzeGo llm none corpus clock topK
            (processedClauses text (some m)) 0).1 :=
        List.mem_map_of_mem _ hr
      rw [show processedClauses text (some m)
          = (splitIntoClauses text DEFAULT_MIN_LEN DEFAULT_MAX_LEN).take m
          from rfl] at hx
      rw [hids.1] at hx
      rcases List.mem_map.mp hx with ⟨cl2, hcl2, he⟩
      have hx2 : r.clauseId ∈ ((splitIntoClauses text DEFAULT_MIN_LEN
          DEFAULT_MAX_LEN).take m).map (fun c => c.id) := by
        rw [← he]
        exact List.mem_map_of_mem _ (List.mem_of_mem_filter hcl2)
      exact Nat.ne_of_lt (hrel _ hx2 _ hy)
    · intro t ht
      have hx : t.clauseId ∈ List.map (fun q : TraceRec => q.clauseId)
          (analyzeGo llm none corpus clock topK
            (processedClauses text (some m)) 0).2 :=
        List.mem_map_of_mem _ ht
      rw [show processedClauses text (some m)
          = (splitIntoClauses text DEFAULT_MIN_LEN DEFAULT_MAX_LEN).take m
          from rfl] at hx
      rw [hids.2] at hx
      rcases List.mem_map.mp hx with ⟨cl2, hcl2, he⟩
      have hx2 : t.clauseId ∈ ((splitIntoClauses text DEFAULT_MIN_LEN
          DEFAULT_MAX_LEN).take m).map (fun c => c.id) := by
        rw [← he]
        exact List.mem_map_of_mem _ (List.mem_of_mem_filter hcl2)
      exact Nat.ne_of_lt (hrel _ hx2 _ hy)

/-! ## The keyword fallback -/

theorem listCharLe_total : ∀ x y : List Char,
    (listCharLe x y || listCharLe y x) = true := by
  intro x
  induction x with
  | nil => intro y; simp [listCharLe]
  | cons a xs ih =>
      intro y
      cases y with
      | nil => simp [listCharLe]
      | cons b ys =>
          rw [listCharLe, listCharLe]
          by_cases h1 : a.toNat < b.toNat
          · simp [h1]
          · by_cases h2 : b.toNat < a.toNat
            · simp [h1, h2]
            · simp only [h1, h2, Bool.false_eq_true, if_false]
              exact ih ys

theorem listCharLe_trans : ∀ x y z : List Char,
    listCharLe x y = true → listCharLe y z = true → listCharLe x z = true := by
  intro x
  induction x with
  | nil => intro y z _ _; rfl
  | cons a xs ih =>
      intro y z hxy hyz
      cases y with
      | nil => simp [listCharLe] at hxy
      | cons b ys =>
          cases z with
          | nil => simp [listCharLe] at hyz
          | cons c zs =>
              rw [listCharLe] at hxy hyz ⊢
              by_cases h1 : a.toNat < b.toNat
              · by_cases h2 : b.toNat < c.toNat
                · simp [show a.toNat < c.toNat by omega]
                · by_cases h3 : c.toNat < b.toNat
                  · rw [if_neg h2, if_pos h3] at hyz
                    simp at hyz
                  · simp [show a.toNat < c.toNat by omega]
              · by_cases h1b : b.toNat < a.toNat
                · rw [if_neg h1, if_pos h1b] at hxy
                  simp at hxy
                · by_cases h2 : b.toNat < c.toNat
                  · simp [show a.toNat < c.toNat by omega]
                  · by_cases h3 : c.toNat < b.toNat
                    · rw [if_neg h2, if_pos h3] at hyz
                      simp at hyz
                    · rw [if_neg h1, if_neg h1b] at hxy
                      rw [if_neg h2, if_neg h3] at hyz
                      rw [if_neg (show ¬ a.toNat < c.toNat by omega),
                        if_neg (show ¬ c.toNat < a.toNat by omega)]
                      exact ih ys zs hxy hyz

theorem pairGE_total : ∀ a b : Nat × List Char, (pairGE a b || pairGE b a) = true := by
  intro a b
  rw [pairGE, pairGE]
  by_cases h1 : a.1 = b.1
  · simp only [h1, if_true, if_pos rfl]
    exact listCharLe_total b.2 a.2
  · have h2 : b.1 ≠ a.1 := fun h => h1 h.symm
    simp only [h1, h2, if_false]
    simp
    omega

theorem pairGE_trans : ∀ a b c : Nat × List Char,
    pairGE a b = true → pairGE b c = true → pairGE a c = true := by
  intro a b c hab hbc
  rw [pairGE] at hab hbc ⊢
  by_cases h1 : a.1 = b.1
  · rw [if_pos h1] at hab
    by_cases h2 : b.1 = c.1
    · rw [if_pos h2] at hbc
      rw [if_pos (h1.trans h2)]
      exact listCharLe_trans _ _ _ hbc hab
    · rw [if_neg h2] at hbc
      simp only [decide_eq_true_eq] at hbc
      rw [if_neg (by omega)]
      simp
      omega
  · rw [if_neg h1] at hab
    simp only [decide_eq_true_eq] at hab
    by_cases h2 : b.1 = c.1
    · rw [if_neg (by omega)]
      simp
      omega
    · rw [if_neg h2] at hbc
      simp only [decide_eq_true_eq] at hbc
      rw [if_neg (by omega)]
      simp
      omega

theorem pairGE_snd_le {a b : Nat × List Char} (h : pairGE a b = true) :
    b.1 ≤ a.1 := by
  rw [pairGE] at h
  by_cases h1 : a.1 = b.1
  · omega
  · rw [if_neg h1] at h
    simp only [decide_eq_true_eq] at h
    omega

theorem filterMap_pos (l : List (Nat × List Char)) :
    l.filterMap (fun sp => if 0 < sp.1 then some sp.2 else none)
      = (l.filter (fun sp => decide (0 < sp.1))).map (fun sp => sp.2) := by
  induction l with
  | nil => rfl
  | cons sp rest ih =>
      rw [List.filterMap_cons, List.filter_cons]
      by_cases h : 0 < sp.1
      · simp only [h, if_true, decide_eq_true_eq]
        rw [ih]
        simp [h]
      · simp only [h, if_false]
        rw [ih]
        simp [h]

theorem mem_scoredSorted {cws : List (List Char)} {precedents : List (List Char)}
    {sp : Nat × List Char} (h : sp ∈ scoredSorted cws precedents) :
    sp.2 ∈ precedents ∧ sp.1 = interScore cws sp.2 := by
  have hperm := List.mergeSort_perm
    (precedents.map (fun p => (interScore cws p, p))) pairGE
  have h2 : sp ∈ precedents.map (fun p => (interScore cws p, p)) :=
    hperm.subset h
  rcases List.mem_map.mp h2 with ⟨p, hp, he⟩
  rw [← he]
  exact ⟨hp, rfl⟩

theorem scoredSorted_pairwise (cws : List (List Char))
    (precedents : List (List Char)) :
    (scoredSorted cws precedents).Pairwise (fun a b => pairGE a b = true) :=
  @List.sorted_mergeSort _ pairGE
    (fun a b c => pairGE_trans a b c)
    (fun a b => pairGE_total a b)
    (precedents.map (fun p => (interScore cws p, p)))

/-- C8 (counterexample).  With a successfully loaded one-element corpus and
`top_k = 1 > 0`, the empty clause text scores zero against every reference,
so the claim requires the first `top_k` references — but the code's falsy
check `if not clause_text` returns the empty sequence before the corpus is
even read. -/
theorem c8_counterexample :
    fallbackPrecedents (some ["foo".toList]) ([] : List Char) 1 = [] ∧
      (∀ p ∈ [("foo".toList)], interScore (wordSet []) p = 0) ∧
      (["foo".toList].take 1 ≠ ([] : List (List Char))) := by
  refine ⟨rfl, by decide, by decide⟩

theorem pickedOf_sub (cws : List (List Char)) (precedents : List (List Char))
    (topK : Nat) :
    ∀ r ∈ pickedOf cws precedents topK, 0 < interScore cws r := by
  intro r hr
  rw [pickedOf, filterMap_pos] at hr
  rcases List.mem_map.mp hr with ⟨sp, hsp, he⟩
  have hsp2 := List.mem_of_mem_filter hsp
  have hpos := List.of_mem_filter hsp
  simp only [decide_eq_true_eq] at hpos
  obtain ⟨_, hscore⟩ := mem_scoredSorted ((List.take_sublist _ _).subset hsp2)
  rw [← he, ← hscore]
  exact hpos

/-- C8 (amended).  A failed corpus load yields the empty sequence, and an
empty clause text also yields the empty sequence (the falsy check precedes
the corpus read — this is the case the original claim missed).  For a
non-empty clause text on a loaded corpus the resolver returns at most
`top_k` references; when no reference scores above zero it returns the
first `top_k` references of the corpus; and when some reference scores
above zero the result is non-empty (for `top_k > 0`), every returned
reference has a positive token-intersection score, and the references
appear in descending score order. -/
theorem c8_fallback_amended (corpus : List (List Char)) (clauseText : List Char)
    (topK : Nat) :
    fallbackPrecedents none clauseText topK = []
    ∧ fallbackPrecedents (some corpus) [] topK = []
    ∧ (clauseText ≠ [] →
        (fallbackPrecedents (some corpus) clauseText topK).length ≤ topK
        ∧ ((∀ p ∈ corpus, interScore (wordSet clauseText) p = 0) →
            fallbackPrecedents (some corpus) clauseText topK = corpus.take topK)
        ∧ ((∃ p ∈ corpus, 0 < interScore (wordSet clauseText) p) →
            (0 < topK → fallbackPrecedents (some corpus) clauseText topK ≠ [])
            ∧ (∀ r ∈ fallbackPrecedents (some corpus) clauseText topK,
                0 < interScore (wordSet clauseText) r)
            ∧ List.Chain'
                (fun a b => interScore (wordSet clauseText) b
                  ≤ interScore (wordSet clauseText) a)
                (fallbackPrecedents (some corpus) clauseText topK))) := by
  refine ⟨by rw [fallbackPrecedents]; split <;> rfl, rfl, ?_⟩
  intro hne
  have hnemp : ¬ clauseText.isEmpty = true := by
    simpa [List.isEmpty_iff] using hne
  have hunf : fallbackPrecedents (some corpus) clauseText topK
      = if (pickedOf (wordSet clauseText) corpus topK).isEmpty then
          corpus.take topK
        else pickedOf (wordSet clauseText) corpus topK := by
    rw [fallbackPrecedents, if_neg hnemp]
  refine ⟨?_, ?_, ?_⟩
  · rw [hunf]
    split
    · exact List.length_take_le topK corpus
    · rw [pickedOf]
      have hlt : ((scoredSorted (wordSet clauseText) corpus).take topK).length
          ≤ topK := List.length_take_le topK (scoredSorted (wordSet clauseText) corpus)
      exact le_trans (List.length_filterMap_le _ _) hlt
  · intro hzero
    have hpick0 : pickedOf (wordSet clauseText) corpus topK = [] := by
      rw [pickedOf, filterMap_pos]
      have hall : ∀ sp ∈ (scoredSorted (wordSet clauseText) corpus).take topK,
          ¬ (decide (0 < sp.1)) = true := by
        intro sp hsp
        obtain ⟨hp, hs⟩ := mem_scoredSorted ((List.take_sublist _ _).subset hsp)
        have := hzero sp.2 hp
        simp only [decide_eq_true_eq]
        omega
      rw [List.filter_eq_nil_iff.mpr hall]
      rfl
    rw [hunf, hpick0]
    rfl
  · intro hpos0
    obtain ⟨p0, hp0, hpos⟩ := hpos0
    have hperm := List.mergeSort_perm
      (corpus.map (fun p => (interScore (wordSet clauseText) p, p))) pairGE
    have hmem0 : (interScore (wordSet clauseText) p0, p0)
        ∈ scoredSorted (wordSet clauseText) corpus := by
      rw [scoredSorted]
      exact hperm.mem_iff.mpr (List.mem_map_of_mem _ hp0)
    rcases hss : scoredSorted (wordSet clauseText) corpus with _ | ⟨hd, tl⟩
    · rw [hss] at hmem0
      simp at hmem0
    · have hpw := scoredSorted_pairwise (wordSet clauseText) corpus
      rw [hss] at hpw hmem0
      have hhd : 0 < hd.1 := by
        rcases List.mem_cons.mp hmem0 with h | h
        · rw [← h]
          exact hpos
        · have hrel := (List.pairwise_cons.mp hpw).1 _ h
          have h2 : interScore (wordSet clauseText) p0 ≤ hd.1 := pairGE_snd_le hrel
          omega
      have hpicked : 0 < topK → pickedOf (wordSet clauseText) corpus topK ≠ [] := by
        intro htk
        obtain ⟨tk, rfl⟩ : ∃ tk, topK = tk + 1 := ⟨topK - 1, by omega⟩
        rw [pickedOf, hss, List.take_succ_cons, List.filterMap_cons]
        simp only [hhd, if_true]
        simp
      refine ⟨?_, ?_, ?_⟩
      · intro htk
        rw [hunf]
        split
        · rename_i hemp
          exact absurd hemp (by simpa [List.isEmpty_iff] using hpicked htk)
        · exact hpicked htk
      · intro r hr
        rw [hunf] at hr
        split at hr
        · rename_i hemp
          by_cases htk : 0 < topK
          · exact absurd hemp (by simpa [List.isEmpty_iff] using hpicked htk)
          · have htk0 : topK = 0 := by omega
            rw [htk0] at hr
            simp at hr
        · exact pickedOf_sub _ _ _ r hr
      · rw [hunf]
        split
        · rename_i hemp
          by_cases htk : 0 < topK
          · exact absurd hemp (by simpa [List.isEmpty_iff] using hpicked htk)
          · have htk0 : topK = 0 := by omega
            rw [htk0]
            simp
        · have hpw2 : ((scoredSorted (wordSet clauseText) corpus).take
              topK).Pairwise (fun a b => pairGE a b = true) := by
            rw [hss]
            exact hpw.sublist (List.take_sublist _ _)
          have hfs : (((scoredSorted (wordSet clauseText) corpus).take
              topK).filter (fun sp => decide (0 < sp.1))).Sublist
              ((scoredSorted (wordSet clauseText) corpus).take topK) :=
            List.filter_sublist _
          have hpw3 := hpw2.sublist hfs
          have hpw4 : (((scoredSorted (wordSet clauseText) corpus).take
              topK).filter (fun sp => decide (0 < sp.1))).Pairwise
              (fun a b => interScore (wordSet clauseText) b.2
                ≤ interScore (wordSet clauseText) a.2) := by
            refine hpw3.imp_of_mem ?_
            intro a b ha hb hab
            obtain ⟨_, hsa⟩ := mem_scoredSorted
              ((List.take_sublist _ _).subset (List.mem_of_mem_filter ha))
            obtain ⟨_, hsb⟩ := mem_scoredSorted
              ((List.take_sublist _ _).subset (List.mem_of_mem_filter hb))
            have := pairGE_snd_le hab
            omega
          rw [pickedOf, filterMap_pos]
          refine List.Pairwise.chain' ?_
          rw [List.pairwise_map]
          exact hpw4

/-- C8 (witness).  The amended fallback theorem instantiated on a concrete
two-reference corpus and the clause text `beta`: the result is non-empty,
every returned reference scores positively, and the order is descending. -/
theorem c8_witness :
    (fallbackPrecedents (some ["alpha beta".toList, "gamma".toList])
        "beta".toList 1 ≠ [])
    ∧ (∀ r ∈ fallbackPrecedents (some ["alpha beta".toList, "gamma".toList])
        "beta".toList 1, 0 < interScore (wordSet "beta".toList) r) := by
  have h := (c8_fallback_amended ["alpha beta".toList, "gamma".toList]
    "beta".toList 1).2.2 (by decide)
  have h2 := h.2.2 ⟨"alpha beta".toList, by decide, by decide⟩
  exact ⟨h2.1 (by omega), h2.2.1⟩

end Netronix
